import Mathlib

/-!
# Verified model of the Go-VerusHash Merkle Mountain Range

This file gives a shallow embedding, in Lean 4, of the Merkle Mountain Range
(MMR) core of the repository (`CMerkleMountainRange`, `CMerkleMountainView`,
`CMMRBranch` and the `CMMRProof` deserialization driver from
`src/verushash/dependencies.go`), together with theorems checking the
natural-language specification against that code.

Modelling conventions:
* `uint256` hashes are modelled as `Nat`, with `0` standing for the null hash
  `uint256()`.
* The hash combiner (`CreateParentNode`, i.e. writing two hashes into a
  `CBLAKE2bWriter` and taking the digest) is an opaque parameter
  `f : Nat → Nat → Nat`; the spec treats the hash algorithm as an external
  collaborator.  Concrete witnesses instantiate `f` with an injective,
  never-null pairing function.
* Nodes are the plain `CMMRNode` variant (hash only, `GetExtraHashCount() = 0`,
  `GetLeafHash() = []`).  `GetProofBits` keeps its `extrahashes` parameter,
  exactly as in the source, where it comes from the node template parameter.
* `CChunkedLayer` is modelled as a plain `List`: its chunked
  vector-of-vectors storage is observationally a flat indexed sequence
  (`nodes[idx >> SHIFT][idx & mask]`), `push_back` appends, and
  `resize` to a smaller size keeps exactly the first `newSize` elements
  (`vSize` is recomputed to `newSize` and indexing is bounds-checked by it).
* C++ loops are rendered as structural recursion on an explicit fuel argument
  so that every operation is kernel-computable; the fuel passed by each
  wrapper provably dominates the loop's iteration count, and right after each
  loop an unfolding equation is proved that restates the loop body as a
  self-recurrence, so no reasoning ever depends on the fuel value.  Reads
  through `operator[]` are rendered with `List.getD _ _ 0` (in-range at every
  use site reached by the theorems below).
-/

/-- Test combiner used by concrete witnesses: an injective pairing on `Nat`
that never returns the null hash `0`. -/
def cmb (a b : Nat) : Nat := Nat.pair a b + 1

/-- Value of a list of bits, least-significant first: bit `i` of the result is
the `i`-th entry.  This is the `retIndex |= 1 << bitPos++` packing used by the
MMR proof-index remapping. -/
def bitsToNat : List Nat → Nat
  | [] => 0
  | b :: rest => b + 2 * bitsToNat rest

/-- Fuelled population count: binary recursion on the value, structurally on
the fuel. -/
def popcountAux : Nat → Nat → Nat
  | 0, _ => 0
  | _ + 1, 0 => 0
  | fuel + 1, n + 1 => (n + 1) % 2 + popcountAux fuel ((n + 1) / 2)

theorem popcountAux_irrel :
    ∀ f1 f2 n, n ≤ f1 → n ≤ f2 → popcountAux f1 n = popcountAux f2 n := by
  intro f1
  induction f1 with
  | zero =>
    intro f2 n h1 _
    interval_cases n
    cases f2 <;> rfl
  | succ g1 ih =>
    intro f2 n h1 h2
    match n, f2 with
    | 0, 0 => rfl
    | 0, _ + 1 => rfl
    | _ + 1, 0 => omega
    | k + 1, g2 + 1 =>
      simp only [popcountAux]
      exact congrArg _ (ih g2 ((k + 1) / 2) (by omega) (by omega))

/-- Number of set bits of a natural number in binary (the population count
named by the spec's peak-count property). -/
def popcount (n : Nat) : Nat := popcountAux n n

theorem popcount_succ (n : Nat) :
    popcount (n + 1) = (n + 1) % 2 + popcount ((n + 1) / 2) := by
  show popcountAux (n + 1) (n + 1) = _
  rw [popcountAux]
  exact congrArg _ (popcountAux_irrel n ((n + 1) / 2) ((n + 1) / 2) (by omega) le_rfl)

/-- Fuelled tail of the halving chain. -/
def halvingAux : Nat → Nat → List Nat
  | 0, _ => []
  | _ + 1, 0 => []
  | fuel + 1, k + 1 => (k + 1) :: halvingAux fuel ((k + 1) / 2)

theorem halvingAux_irrel :
    ∀ f1 f2 k, k ≤ f1 → k ≤ f2 → halvingAux f1 k = halvingAux f2 k := by
  intro f1
  induction f1 with
  | zero =>
    intro f2 k h1 _
    interval_cases k
    cases f2 <;> rfl
  | succ g1 ih =>
    intro f2 k h1 h2
    match k, f2 with
    | 0, 0 => rfl
    | 0, _ + 1 => rfl
    | _ + 1, 0 => omega
    | j + 1, g2 + 1 =>
      simp only [halvingAux, List.cons.injEq, true_and]
      exact ih g2 ((j + 1) / 2) (by omega) (by omega)

/-- Tail of the halving chain: pushes while the value is nonzero
(the `while (newSize) { sizes.push_back(newSize); newSize >>= 1; }` loops). -/
def halving (k : Nat) : List Nat := halvingAux k k

theorem halving_zero : halving 0 = [] := rfl

theorem halving_succ (k : Nat) : halving (k + 1) = (k + 1) :: halving ((k + 1) / 2) := by
  show halvingAux (k + 1) (k + 1) = _
  rw [halvingAux]
  exact congrArg _ (halvingAux_irrel k ((k + 1) / 2) ((k + 1) / 2) (by omega) le_rfl)

/-- Halving chain `[n, n >> 1, n >> 2, ...]` stopping before zero.  The first
push is unconditional in every use in the source, so for `n = 0` this is the
one-element chain `[0]`. -/
def sizesList (n : Nat) : List Nat :=
  n :: halving (n / 2)

/-- Resize of a C++ vector/layer: truncate to the first `n` elements, or pad
with default-constructed elements (`d`) when growing. -/
def listResize (l : List α) (n : Nat) (d : α) : List α :=
  if n ≤ l.length then l.take n else l ++ List.replicate (n - l.length) d

/-- State of `CMerkleMountainRange` over plain nodes: the leaf layer and the
stack of interior layers (`upperNodes[h]` holds the nodes of tree height
`h + 1`). -/
structure MMR where
  layer0 : List Nat
  upperNodes : List (List Nat)
deriving DecidableEq, Repr

/-- Number of leaves (`CMerkleMountainRange::size`, the size of layer 0). -/
def MMR.size (m : MMR) : Nat := m.layer0.length

/-- Height of the range (`CMerkleMountainRange::height`):
`layer0.size() ? upperNodes.size() + 1 : 0`. -/
def MMR.height (m : MMR) : Nat :=
  if m.layer0.length = 0 then 0 else m.upperNodes.length + 1

/-- Node lookup (`CMerkleMountainRange::GetNode(Height, Index)`): the node at a
given height and index, or the default (null-hash) node when out of bounds. -/
def MMR.getNode (m : MMR) (h idx : Nat) : Nat :=
  if h < m.height then
    if 0 < h then
      if idx < (m.upperNodes.getD (h - 1) []).length then
        (m.upperNodes.getD (h - 1) []).getD idx 0
      else 0
    else
      if idx < m.layer0.length then m.layer0.getD idx 0 else 0
  else 0

/-- Fuelled interior-layer update loop of `CMerkleMountainRange::Add`. -/
def addLoopAux (f : Nat → Nat → Nat) (layer0 : List Nat) :
    Nat → Nat → Nat → List (List Nat) → List (List Nat)
  | 0, _, _, upper => upper
  | fuel + 1, height, layerSize, upper =>
    if height ≤ upper.length ∧ 1 < layerSize then
      let newSizeAbove := layerSize / 2
      let upper1 := if height = upper.length then upper ++ [[]] else upper
      let curSizeAbove := (upper1.getD height []).length
      let upper2 :=
        if layerSize % 2 = 0 ∧ curSizeAbove < newSizeAbove then
          let idx := layerSize - 2
          let parent :=
            if height = 0 then f (layer0.getD idx 0) (layer0.getD (idx + 1) 0)
            else f ((upper1.getD (height - 1) []).getD idx 0)
                   ((upper1.getD (height - 1) []).getD (idx + 1) 0)
          upper1.set height ((upper1.getD height []) ++ [parent])
        else upper1
      addLoopAux f layer0 fuel (height + 1) newSizeAbove upper2
    else upper

theorem addLoopAux_irrel (f : Nat → Nat → Nat) (layer0 : List Nat) :
    ∀ f1 f2 height layerSize upper, layerSize ≤ f1 → layerSize ≤ f2 →
      addLoopAux f layer0 f1 height layerSize upper
        = addLoopAux f layer0 f2 height layerSize upper := by
  intro f1
  induction f1 with
  | zero =>
    intro f2 height layerSize upper h1 _
    interval_cases layerSize
    cases f2 with
    | zero => rfl
    | succ g2 => simp [addLoopAux]
  | succ g1 ih =>
    intro f2 height layerSize upper h1 h2
    cases f2 with
    | zero =>
      interval_cases layerSize
      simp [addLoopAux]
    | succ g2 =>
      simp only [addLoopAux]
      by_cases hc : height ≤ upper.length ∧ 1 < layerSize
      · rw [if_pos hc, if_pos hc]
        exact ih g2 (height + 1) (layerSize / 2) _ (by omega) (by omega)
      · rw [if_neg hc, if_neg hc]

/-- Interior-layer update loop of `CMerkleMountainRange::Add`: starting from
the freshly extended `layer0`, walk heights upward while
`height <= upperNodes.size() && layerSize > 1`; allocate a new layer when the
walk first reaches a height, and push the parent of the last completed pair
when the layer above is short one element. -/
def addLoop (f : Nat → Nat → Nat) (layer0 : List Nat)
    (height layerSize : Nat) (upper : List (List Nat)) : List (List Nat) :=
  addLoopAux f layer0 layerSize height layerSize upper

theorem addLoop_eq (f : Nat → Nat → Nat) (layer0 : List Nat)
    (height layerSize : Nat) (upper : List (List Nat)) :
    addLoop f layer0 height layerSize upper =
      if height ≤ upper.length ∧ 1 < layerSize then
        let newSizeAbove := layerSize / 2
        let upper1 := if height = upper.length then upper ++ [[]] else upper
        let curSizeAbove := (upper1.getD height []).length
        let upper2 :=
          if layerSize % 2 = 0 ∧ curSizeAbove < newSizeAbove then
            let idx := layerSize - 2
            let parent :=
              if height = 0 then f (layer0.getD idx 0) (layer0.getD (idx + 1) 0)
              else f ((upper1.getD (height - 1) []).getD idx 0)
                     ((upper1.getD (height - 1) []).getD (idx + 1) 0)
            upper1.set height ((upper1.getD height []) ++ [parent])
          else upper1
        addLoop f layer0 (height + 1) newSizeAbove upper2
      else upper := by
  cases layerSize with
  | zero => simp [addLoop, addLoopAux]
  | succ ls =>
    show addLoopAux f layer0 (ls + 1) height (ls + 1) upper = _
    rw [addLoopAux]
    by_cases hc : height ≤ upper.length ∧ 1 < ls + 1
    · rw [if_pos hc, if_pos hc]
      exact addLoopAux_irrel f layer0 ls ((ls + 1) / 2) (height + 1) ((ls + 1) / 2) _
        (by omega) le_rfl
    · rw [if_neg hc, if_neg hc]

/-- Append of one leaf (`CMerkleMountainRange::Add`): push onto layer 0, then
run the interior-layer update loop. -/
def MMR.add (f : Nat → Nat → Nat) (m : MMR) (leaf : Nat) : MMR :=
  let l0 := m.layer0 ++ [leaf]
  ⟨l0, addLoop f l0 0 l0.length m.upperNodes⟩

/-- Fresh MMR built by appending the given leaves in order. -/
def buildMMR (f : Nat → Nat → Nat) (leaves : List Nat) : MMR :=
  leaves.foldl (MMR.add f) ⟨[], []⟩

/-- Rewind (`CMerkleMountainRange::Truncate`): when `newSize` is below the
current size, recompute the halving chain of per-height sizes from `newSize`,
shrink the stack of interior layers to `sizes.size() - 1`, and resize layer 0
and every interior layer to its recomputed size. -/
def MMR.truncate (m : MMR) (newSize : Nat) : MMR :=
  if newSize < m.layer0.length then
    let sizes := sizesList newSize
    let upper1 := listResize m.upperNodes (sizes.length - 1) []
    let layer0' := listResize m.layer0 (sizes.getD 0 0) 0
    let upper2 := (List.range upper1.length).foldl
      (fun u i => u.set i (listResize (u.getD i []) (sizes.getD (i + 1) 0) 0)) upper1
    ⟨layer0', upper2⟩
  else m

/-- State of `CMerkleMountainView`: the underlying range and the halving chain
of per-height size proxies. -/
structure MMView where
  mmr : MMR
  sizes : List Nat

/-- View constructor (`CMerkleMountainView(mountainRange, viewSize)`): a
`viewSize` of `0`, or one exceeding the range's size, is replaced by the
range's current size; `sizes` is the halving chain from the resulting size. -/
def mkView (m : MMR) (viewSize : Nat) : MMView :=
  let maxSize := m.size
  let v := if maxSize < viewSize ∨ viewSize = 0 then maxSize else viewSize
  ⟨m, sizesList v⟩

/-- Element count of the view (`CMerkleMountainView::size`): zero when the
sizes chain is empty, else its first entry. -/
def MMView.size (v : MMView) : Nat :=
  if v.sizes.length = 0 then 0 else v.sizes.getD 0 0

/-- Peak list computation (`CMerkleMountainView::CalcPeaks`): walk the heights
upward; a height is a peak when it is the topmost or the layer above is
smaller than half its size rounded up; each peak node
`GetNode(ht, sizes[ht] - 1)` is inserted at the front of the list. -/
def MMView.calcPeaks (v : MMView) : List Nat :=
  (List.range v.sizes.length).foldl
    (fun acc ht =>
      if ht = v.sizes.length - 1 ∨
          v.sizes.getD (ht + 1) 0 < (v.sizes.getD ht 0 + 1) / 2 then
        v.mmr.getNode ht (v.sizes.getD ht 0 - 1) :: acc
      else acc) []

/-- One layer of the peak-merkle reduction built by
`CMerkleMountainView::GetRoot`: parents of the pairs `(l[2i], l[2i+1])` for
`i < size/2`, then, when the layer length is odd, the unpaired last element
passed through. -/
def buildLayer (f : Nat → Nat → Nat) (l : List Nat) : List Nat :=
  (List.range (l.length / 2)).map (fun i => f (l.getD (2 * i) 0) (l.getD (2 * i + 1) 0))
    ++ (if l.length % 2 = 1 then [l.getD (l.length - 1) 0] else [])

theorem buildLayer_length (f : Nat → Nat → Nat) (l : List Nat) :
    (buildLayer f l).length = l.length / 2 + l.length % 2 := by
  simp only [buildLayer, List.length_append, List.length_map, List.length_range]
  rcases Nat.mod_two_eq_zero_or_one l.length with hp | hp
  · rw [if_neg (by omega)]; simp only [List.length_nil]; omega
  · rw [if_pos (by omega)]; simp only [List.length_singleton]; omega

/-- Fuelled peak-merkle loop of `CMerkleMountainView::GetRoot`. -/
def rootLoopAux (f : Nat → Nat → Nat) : Nat → List Nat → Bool → Nat
  | 0, cur, _ => cur.getD 0 0
  | fuel + 1, cur, first =>
    if first = true ∨ 1 < cur.length then rootLoopAux f fuel (buildLayer f cur) false
    else cur.getD 0 0

theorem rootLoopAux_irrel (f : Nat → Nat → Nat) :
    ∀ f1 f2 (cur : List Nat) (first : Bool),
      cur.length + (if first then 1 else 0) < f1 →
      cur.length + (if first then 1 else 0) < f2 →
      rootLoopAux f f1 cur first = rootLoopAux f f2 cur first := by
  intro f1
  induction f1 with
  | zero => omega
  | succ g1 ih =>
    intro f2 cur first h1 h2
    match f2 with
    | 0 => omega
    | g2 + 1 =>
      simp only [rootLoopAux]
      by_cases hc : first = true ∨ 1 < cur.length
      · rw [if_pos hc, if_pos hc]
        refine ih g2 (buildLayer f cur) false ?_ ?_ <;>
          · rw [buildLayer_length]
            rcases first with _ | _ <;> simp_all <;> omega
      · rw [if_neg hc, if_neg hc]

/-- Peak-merkle loop of `CMerkleMountainView::GetRoot`: build reduction layers
(at least one — the first iteration is unconditional) until a layer of at most
one node remains; the result is entry `0` of the last layer built. -/
def rootLoop (f : Nat → Nat → Nat) (cur : List Nat) (first : Bool) : Nat :=
  rootLoopAux f (cur.length + 2) cur first

theorem rootLoop_eq (f : Nat → Nat → Nat) (cur : List Nat) (first : Bool) :
    rootLoop f cur first =
      if first = true ∨ 1 < cur.length then rootLoop f (buildLayer f cur) false
      else cur.getD 0 0 := by
  show rootLoopAux f (cur.length + 2) cur first = _
  rw [rootLoopAux]
  by_cases hc : first = true ∨ 1 < cur.length
  · rw [if_pos hc, if_pos hc]
    refine rootLoopAux_irrel f (cur.length + 1) ((buildLayer f cur).length + 2)
      (buildLayer f cur) false ?_ ?_ <;>
      · rw [buildLayer_length]
        simp only [Bool.false_eq_true, if_false]
        omega
  · rw [if_neg hc, if_neg hc]

/-- Root of the view (`CMerkleMountainView::GetRoot`): null for an empty view,
else the peak-merkle reduction of the peak list. -/
def MMView.getRoot (f : Nat → Nat → Nat) (v : MMView) : Nat :=
  if 0 < v.size then rootLoop f v.calcPeaks true else 0

/-- Fuelled peak-merkle phase of `CMerkleMountainView::GetProof`. -/
def peakWalkAux (f : Nat → Nat → Nat) : Nat → List Nat → Nat → Bool → List (Bool × Nat)
  | 0, _, _, _ => []
  | fuel + 1, cur, p, first =>
    if first = true ∨ 1 < cur.length then
      (if p + 1 < cur.length ∨ p % 2 = 1 then
        if p % 2 = 1 then [(true, cur.getD (p - 1) 0)] else [(false, cur.getD (p + 1) 0)]
      else [])
        ++ peakWalkAux f fuel (buildLayer f cur) (p / 2) false
    else []

theorem peakWalkAux_irrel (f : Nat → Nat → Nat) :
    ∀ f1 f2 (cur : List Nat) (p : Nat) (first : Bool),
      cur.length + (if first then 1 else 0) < f1 →
      cur.length + (if first then 1 else 0) < f2 →
      peakWalkAux f f1 cur p first = peakWalkAux f f2 cur p first := by
  intro f1
  induction f1 with
  | zero => omega
  | succ g1 ih =>
    intro f2 cur p first h1 h2
    match f2 with
    | 0 => omega
    | g2 + 1 =>
      simp only [peakWalkAux]
      by_cases hc : first = true ∨ 1 < cur.length
      · rw [if_pos hc, if_pos hc]
        refine congrArg _ (ih g2 (buildLayer f cur) (p / 2) false ?_ ?_) <;>
          · rw [buildLayer_length]
            rcases first with _ | _ <;> simp_all <;> omega
      · rw [if_neg hc, if_neg hc]

/-- Peak-merkle phase of `CMerkleMountainView::GetProof`: starting at position
`p` of the current peak layer `cur`, walk upward through the reduction layers
(the first iteration is unconditional, then while the layer has more than one
entry).  At each layer, a position that is odd, or that has a successor,
emits one step — `(true, predecessor)` for odd positions (sibling hashed on
the left), `(false, successor)` for even ones — while an unpaired trailing
even position propagates without emitting; the position is halved each
layer. -/
def peakWalk (f : Nat → Nat → Nat) (cur : List Nat) (p : Nat) (first : Bool) :
    List (Bool × Nat) :=
  peakWalkAux f (cur.length + 2) cur p first

theorem peakWalk_eq (f : Nat → Nat → Nat) (cur : List Nat) (p : Nat) (first : Bool) :
    peakWalk f cur p first =
      if first = true ∨ 1 < cur.length then
        (if p + 1 < cur.length ∨ p % 2 = 1 then
          if p % 2 = 1 then [(true, cur.getD (p - 1) 0)] else [(false, cur.getD (p + 1) 0)]
        else [])
          ++ peakWalk f (buildLayer f cur) (p / 2) false
      else [] := by
  show peakWalkAux f (cur.length + 2) cur p first = _
  rw [peakWalkAux]
  by_cases hc : first = true ∨ 1 < cur.length
  · rw [if_pos hc, if_pos hc]
    refine congrArg _ (peakWalkAux_irrel f (cur.length + 1)
      ((buildLayer f cur).length + 2) (buildLayer f cur) (p / 2) false ?_ ?_) <;>
      · rw [buildLayer_length]
        simp only [Bool.false_eq_true, if_false]
        omega
  · rw [if_neg hc, if_neg hc]

/-- Fuelled per-height walk of `CMerkleMountainView::GetProof`. -/
def walkLayersAux (f : Nat → Nat → Nat) (m : MMR) (sizes peaks : List Nat) :
    Nat → Nat → Nat → List (Bool × Nat)
  | 0, _, _ => []
  | fuel + 1, l, p =>
    if l < sizes.length then
      if p % 2 = 1 then
        (true, m.getNode l (p - 1)) :: walkLayersAux f m sizes peaks fuel (l + 1) (p / 2)
      else if p + 1 < sizes.getD l 0 then
        (false, m.getNode l (p + 1)) :: walkLayersAux f m sizes peaks fuel (l + 1) (p / 2)
      else
        peakWalk f peaks (peaks.findIdx (· = m.getNode l p)) true
    else []

theorem walkLayersAux_irrel (f : Nat → Nat → Nat) (m : MMR) (sizes peaks : List Nat) :
    ∀ f1 f2 l p, sizes.length - l ≤ f1 → sizes.length - l ≤ f2 →
      walkLayersAux f m sizes peaks f1 l p = walkLayersAux f m sizes peaks f2 l p := by
  intro f1
  induction f1 with
  | zero =>
    intro f2 l p h1 _
    match f2 with
    | 0 => rfl
    | g2 + 1 =>
      simp only [walkLayersAux]
      rw [if_neg (by omega)]
  | succ g1 ih =>
    intro f2 l p h1 h2
    match f2 with
    | 0 =>
      simp only [walkLayersAux]
      rw [if_neg (by omega)]
    | g2 + 1 =>
      simp only [walkLayersAux]
      by_cases hl : l < sizes.length
      · rw [if_pos hl, if_pos hl]
        have hr := ih g2 (l + 1) (p / 2) (by omega) (by omega)
        by_cases hp : p % 2 = 1
        · rw [if_pos hp, if_pos hp, hr]
        · rw [if_neg hp, if_neg hp]
          by_cases hs : p + 1 < sizes.getD l 0
          · rw [if_pos hs, if_pos hs, hr]
          · rw [if_neg hs, if_neg hs]
      · rw [if_neg hl, if_neg hl]

/-- Per-height walk of `CMerkleMountainView::GetProof`: from position `p` at
height `l`, an odd position emits its left sibling `GetNode(l, p - 1)` as a
`(true, ·)` step, an even position with a successor in the view emits the
right sibling `GetNode(l, p + 1)` as a `(false, ·)` step, and an even
position with no successor is a peak: the walk locates that node among the
peaks by a first-match hash scan and switches to the peak-merkle phase. -/
def walkLayers (f : Nat → Nat → Nat) (m : MMR) (sizes peaks : List Nat)
    (l p : Nat) : List (Bool × Nat) :=
  walkLayersAux f m sizes peaks (sizes.length - l) l p

theorem walkLayers_eq (f : Nat → Nat → Nat) (m : MMR) (sizes peaks : List Nat)
    (l p : Nat) :
    walkLayers f m sizes peaks l p =
      if l < sizes.length then
        if p % 2 = 1 then
          (true, m.getNode l (p - 1)) :: walkLayers f m sizes peaks (l + 1) (p / 2)
        else if p + 1 < sizes.getD l 0 then
          (false, m.getNode l (p + 1)) :: walkLayers f m sizes peaks (l + 1) (p / 2)
        else
          peakWalk f peaks (peaks.findIdx (· = m.getNode l p)) true
      else [] := by
  show walkLayersAux f m sizes peaks (sizes.length - l) l p = _
  by_cases hl : l < sizes.length
  · obtain ⟨k, hk⟩ : ∃ k, sizes.length - l = k + 1 := ⟨sizes.length - l - 1, by omega⟩
    rw [hk]
    simp only [walkLayersAux]
    have hr := walkLayersAux_irrel f m sizes peaks k (sizes.length - (l + 1))
      (l + 1) (p / 2) (by omega) le_rfl
    rw [if_pos hl, if_pos hl, hr]
    rfl
  · have hz : sizes.length - l = 0 := by omega
    rw [hz]
    simp only [walkLayersAux]
    rw [if_neg hl]

/-- Steps of `CMerkleMountainView::GetProof(pos)` over plain nodes: each step
is the left/right decision together with the sibling hash appended to the
branch (a plain node's `GetProofHash` is its bare hash, and `GetLeafHash` is
empty, so nothing precedes the walk). -/
def MMView.getProofSteps (f : Nat → Nat → Nat) (v : MMView) (pos : Nat) :
    List (Bool × Nat) :=
  walkLayers f v.mmr v.sizes v.calcPeaks 0 pos

/-- Sibling-hash branch collected by `GetProof`. -/
def MMView.getProofBranch (f : Nat → Nat → Nat) (v : MMView) (pos : Nat) : List Nat :=
  (v.getProofSteps f pos).map Prod.snd

/-- Result of `CMerkleMountainView::GetProof(pos)`: `none` (the `false`
return) when `pos` is out of range, else the packaged branch
`(nIndex = pos, nSize = size(), branch)`. -/
def MMView.getProof (f : Nat → Nat → Nat) (v : MMView) (pos : Nat) :
    Option (Nat × Nat × List Nat) :=
  if pos < v.size then some (pos, v.size, v.getProofBranch f pos) else none

/-- Peak-height list of `CMerkleMountainView::GetProofBits`: heights `ht` with
`ht == Sizes.size() - 1 || (Sizes[ht] & 1)`, inserted at the front (so listed
from highest height to lowest). -/
def peakIndexesOf (sizes : List Nat) : List Nat :=
  (List.range sizes.length).foldl
    (fun acc ht =>
      if ht = sizes.length - 1 ∨ sizes.getD ht 0 % 2 = 1 then ht :: acc else acc) []

/-- Fuelled peak-merkle phase of `GetProofBits`. -/
def bitsPeakWalkAux (extrahashes : Nat) : Nat → Nat → Nat → Bool → List Nat
  | 0, _, _, _ => []
  | fuel + 1, s, p, first =>
    if first = true ∨ 1 < s then
      (if p + 1 < s ∨ p % 2 = 1 then
        (if p % 2 = 1 then 1 else 0) :: List.replicate extrahashes 0
      else [])
        ++ bitsPeakWalkAux extrahashes fuel (s / 2 + s % 2) (p / 2) false
    else []

theorem bitsPeakWalkAux_irrel (extrahashes : Nat) :
    ∀ f1 f2 s p (first : Bool),
      s + (if first then 1 else 0) < f1 → s + (if first then 1 else 0) < f2 →
      bitsPeakWalkAux extrahashes f1 s p first = bitsPeakWalkAux extrahashes f2 s p first := by
  intro f1
  induction f1 with
  | zero => omega
  | succ g1 ih =>
    intro f2 s p first h1 h2
    match f2 with
    | 0 => omega
    | g2 + 1 =>
      simp only [bitsPeakWalkAux]
      by_cases hc : first = true ∨ 1 < s
      · rw [if_pos hc, if_pos hc]
        refine congrArg _ (ih g2 (s / 2 + s % 2) (p / 2) false ?_ ?_) <;>
          · rcases first with _ | _ <;> simp_all <;> omega
      · rw [if_neg hc, if_neg hc]

/-- Peak-merkle phase of `GetProofBits`, mirroring `peakWalk` on layer sizes
alone: the successive layer sizes are `⌈s/2⌉` (the `MerkleSizes` chain), and
each emitting step pushes its decision bit followed by `extrahashes`
placeholder zero bits. -/
def bitsPeakWalk (extrahashes : Nat) (s p : Nat) (first : Bool) : List Nat :=
  bitsPeakWalkAux extrahashes (s + 2) s p first

theorem bitsPeakWalk_eq (extrahashes : Nat) (s p : Nat) (first : Bool) :
    bitsPeakWalk extrahashes s p first =
      if first = true ∨ 1 < s then
        (if p + 1 < s ∨ p % 2 = 1 then
          (if p % 2 = 1 then 1 else 0) :: List.replicate extrahashes 0
        else [])
          ++ bitsPeakWalk extrahashes (s / 2 + s % 2) (p / 2) false
      else [] := by
  show bitsPeakWalkAux extrahashes (s + 2) s p first = _
  rw [bitsPeakWalkAux]
  by_cases hc : first = true ∨ 1 < s
  · rw [if_pos hc, if_pos hc]
    refine congrArg _ (bitsPeakWalkAux_irrel extrahashes (s + 1)
      (s / 2 + s % 2 + 2) (s / 2 + s % 2) (p / 2) false ?_ ?_) <;>
      · simp only [Bool.false_eq_true, if_false]
        omega
  · rw [if_neg hc, if_neg hc]

/-- Fuelled per-height walk of `GetProofBits`. -/
def bitsWalkAux (extrahashes : Nat) (sizes peakIndexes : List Nat) :
    Nat → Nat → Nat → List Nat
  | 0, _, _ => []
  | fuel + 1, l, p =>
    if l < sizes.length then
      if p % 2 = 1 then
        1 :: List.replicate extrahashes 0
          ++ bitsWalkAux extrahashes sizes peakIndexes fuel (l + 1) (p / 2)
      else if p + 1 < sizes.getD l 0 then
        0 :: List.replicate extrahashes 0
          ++ bitsWalkAux extrahashes sizes peakIndexes fuel (l + 1) (p / 2)
      else
        bitsPeakWalk extrahashes peakIndexes.length (peakIndexes.findIdx (· = l)) true
    else []

theorem bitsWalkAux_irrel (extrahashes : Nat) (sizes peakIndexes : List Nat) :
    ∀ f1 f2 l p, sizes.length - l ≤ f1 → sizes.length - l ≤ f2 →
      bitsWalkAux extrahashes sizes peakIndexes f1 l p
        = bitsWalkAux extrahashes sizes peakIndexes f2 l p := by
  intro f1
  induction f1 with
  | zero =>
    intro f2 l p h1 _
    match f2 with
    | 0 => rfl
    | g2 + 1 =>
      simp only [bitsWalkAux]
      rw [if_neg (by omega)]
  | succ g1 ih =>
    intro f2 l p h1 h2
    match f2 with
    | 0 =>
      simp only [bitsWalkAux]
      rw [if_neg (by omega)]
    | g2 + 1 =>
      simp only [bitsWalkAux]
      by_cases hl : l < sizes.length
      · rw [if_pos hl, if_pos hl]
        have hr := ih g2 (l + 1) (p / 2) (by omega) (by omega)
        by_cases hp : p % 2 = 1
        · rw [if_pos hp, if_pos hp, hr]
        · rw [if_neg hp, if_neg hp]
          by_cases hs : p + 1 < sizes.getD l 0
          · rw [if_pos hs, if_pos hs, hr]
          · rw [if_neg hs, if_neg hs]
      · rw [if_neg hl, if_neg hl]

/-- Per-height walk of `GetProofBits`, mirroring `walkLayers` on sizes alone:
each emitted sibling contributes its decision bit (`1` for odd positions, `0`
for even) followed by `extrahashes` placeholder zero bits; at a peak, the
entry height is located in `PeakIndexes` by first-match scan and the walk
switches to the peak-merkle phase. -/
def bitsWalk (extrahashes : Nat) (sizes peakIndexes : List Nat) (l p : Nat) : List Nat :=
  bitsWalkAux extrahashes sizes peakIndexes (sizes.length - l) l p

theorem bitsWalk_eq (extrahashes : Nat) (sizes peakIndexes : List Nat) (l p : Nat) :
    bitsWalk extrahashes sizes peakIndexes l p =
      if l < sizes.length then
        if p % 2 = 1 then
          1 :: List.replicate extrahashes 0
            ++ bitsWalk extrahashes sizes peakIndexes (l + 1) (p / 2)
        else if p + 1 < sizes.getD l 0 then
          0 :: List.replicate extrahashes 0
            ++ bitsWalk extrahashes sizes peakIndexes (l + 1) (p / 2)
        else
          bitsPeakWalk extrahashes peakIndexes.length (peakIndexes.findIdx (· = l)) true
      else [] := by
  show bitsWalkAux extrahashes sizes peakIndexes (sizes.length - l) l p = _
  by_cases hl : l < sizes.length
  · obtain ⟨k, hk⟩ : ∃ k, sizes.length - l = k + 1 := ⟨sizes.length - l - 1, by omega⟩
    rw [hk]
    simp only [bitsWalkAux]
    have hr := bitsWalkAux_irrel extrahashes sizes peakIndexes k
      (sizes.length - (l + 1)) (l + 1) (p / 2) (by omega) le_rfl
    rw [if_pos hl, if_pos hl, hr]
    rfl
  · have hz : sizes.length - l = 0 := by omega
    rw [hz]
    simp only [bitsWalkAux]
    rw [if_neg hl]

/-- Static proof-shape function `CMerkleMountainView::GetProofBits(pos,
mmvSize)`: empty unless `0 < pos < mmvSize`; otherwise `extrahashes` leading
placeholder zero bits (the leaf extra hashes) followed by the decision bits of
the walk from `pos` through the halving chain of `mmvSize`. -/
def getProofBits (extrahashes : Nat) (pos mmvSize : Nat) : List Nat :=
  if 0 < pos ∧ pos < mmvSize then
    List.replicate extrahashes 0
      ++ bitsWalk extrahashes (sizesList mmvSize) (peakIndexesOf (sizesList mmvSize)) 0 pos
  else []

/-- Modelled from the spec: `CMerkleBranchBase::GetMMRProofIndex` is declared
in the sources but its body is not part of this repository snapshot.  Per
§4.5 of the spec, its "exact bit-packing must mirror `GetProofBits`' layout";
accordingly the remapped index is the number whose binary expansion,
least-significant bit first, is exactly the bit sequence `GetProofBits(pos,
mmvSize)` produces for the same node type. -/
def getMMRProofIndex (pos mmvSize : Nat) (extrahashes : Nat) : Nat :=
  bitsToNat (getProofBits extrahashes pos mmvSize)

/-- Replay loop shared by `CMMRBranch::SafeCheck` and
`CMerkleBranch::SafeCheck`: walk the branch; when the current low bit of the
index is set, a sibling equal to the running hash is non-canonical and the
whole check returns the null hash, otherwise the pair is hashed with the
sibling on the left; when the bit is clear the sibling goes on the right; the
index is shifted right one bit per sibling and the final running hash is
returned. -/
def safeCheckLoop (f : Nat → Nat → Nat) : List Nat → Nat → Nat → Nat
  | [], _, hash => hash
  | b :: rest, index, hash =>
    if index % 2 = 1 then
      if b = hash then 0
      else safeCheckLoop f rest (index / 2) (f b hash)
    else safeCheckLoop f rest (index / 2) (f hash b)

/-- Predicate for the replay never hitting the non-canonical rejection: at
every step whose index bit is set, the sibling differs from the running
hash. -/
def safeCheckNoTrigger (f : Nat → Nat → Nat) : List Nat → Nat → Nat → Bool
  | [], _, _ => true
  | b :: rest, index, hash =>
    if index % 2 = 1 then
      decide (b ≠ hash) && safeCheckNoTrigger f rest (index / 2) (f b hash)
    else safeCheckNoTrigger f rest (index / 2) (f hash b)

/-- Full `CMMRBranch::SafeCheck` over plain nodes: remap `(nIndex, nSize)`
through `GetMMRProofIndex`, return the null hash when the stored index is the
64-bit sentinel `-1`, else replay the branch. -/
def branchSafeCheck (f : Nat → Nat → Nat) (extrahashes : Nat)
    (nIndex nSize : Nat) (branch : List Nat) (hash : Nat) : Nat :=
  let index := getMMRProofIndex nIndex nSize extrahashes
  if index = 18446744073709551615 then 0
  else safeCheckLoop f branch index hash

/-- Read loop of `CMMRProof::SerializationOp` (deserialization direction),
parametric over the stream type `σ`, the parsed-branch type `α`, the one-byte
reader and the per-type branch payload readers (a `none` models a stream
exception).  Each iteration checks the error flag, reads the branch-type tag,
dispatches on it — an unknown tag sets the error flag without pushing — and
appends the successfully parsed branch.  Returns the accumulated sequence and
the error flag. -/
def readProofLoop (readByte : σ → Option (Nat × σ)) (readBranch : Nat → σ → Option (α × σ)) :
    Nat → σ → List α → Bool → List α × Bool
  | 0, _, acc, error => (acc, error)
  | i + 1, s, acc, error =>
    if error then (acc, error)
    else
      match readByte s with
      | none => (acc, true)
      | some (tag, s1) =>
        if 1 ≤ tag ∧ tag ≤ 5 then
          match readBranch tag s1 with
          | none => (acc, true)
          | some (b, s2) => readProofLoop readByte readBranch i s2 (acc ++ [b]) error
        else readProofLoop readByte readBranch i s1 acc true

/-- Deserialization of a `CMMRProof` with a declared count of `proofSize`
branches: run the read loop from an empty sequence, and on error discard
every branch read so far (`DeleteProofSequence`). -/
def deserializeProof (readByte : σ → Option (Nat × σ)) (readBranch : Nat → σ → Option (α × σ))
    (proofSize : Nat) (s : σ) : List α :=
  let r := readProofLoop readByte readBranch proofSize s [] false
  if r.2 then [] else r.1

/-- Pairwise layer step as the spec words it: combine `l[2i]` with `l[2i+1]`;
a layer of odd length passes its last, unpaired element through unchanged. -/
def pairFold (f : Nat → Nat → Nat) : List Nat → List Nat
  | a :: b :: rest => f a b :: pairFold f rest
  | l => l

theorem pairFold_length (f : Nat → Nat → Nat) :
    (l : List Nat) → (pairFold f l).length = l.length / 2 + l.length % 2
  | [] => by simp [pairFold]
  | [_] => by simp [pairFold]
  | _ :: _ :: rest => by
    simp only [pairFold, List.length_cons, pairFold_length f rest]; omega

/-- Root as the spec words it: reduce the list pairwise layer by layer until
one node remains; an empty list reduces to the null hash. -/
def specRoot (f : Nat → Nat → Nat) : List Nat → Nat
  | [] => 0
  | [x] => x
  | a :: b :: rest => specRoot f (pairFold f (a :: b :: rest))
termination_by l => l.length
decreasing_by simp only [pairFold_length, List.length_cons]; omega

/-- Replay as the spec words it, with the consumed bit made explicit: the
`i`-th sibling of the branch is combined according to bit `i` of the stored
index (least-significant first) — sibling on the left, after the
non-canonical equality check, when the bit is set; sibling on the right when
clear. -/
def lsbReplay (f : Nat → Nat → Nat) (index : Nat) : List Nat → Nat → Nat → Nat
  | [], _, hash => hash
  | b :: rest, i, hash =>
    if index.testBit i then
      if b = hash then 0 else lsbReplay f index rest (i + 1) (f b hash)
    else lsbReplay f index rest (i + 1) (f hash b)

/-- Proof-sequence parse as the spec words it: read `n` tag-prefixed branches
in order and fail (`none`) on the first unknown tag or stream exception. -/
def specParse (readByte : σ → Option (Nat × σ)) (readBranch : Nat → σ → Option (α × σ)) :
    Nat → σ → Option (List α)
  | 0, _ => some []
  | i + 1, s =>
    match readByte s with
    | none => none
    | some (tag, s1) =>
      if 1 ≤ tag ∧ tag ≤ 5 then
        match readBranch tag s1 with
        | none => none
        | some (b, s2) => (specParse readByte readBranch i s2).map (b :: ·)
      else none

/-- Hash of the perfect binary subtree of height `h` whose leaves are
`L[i·2^h .. (i+1)·2^h)`. -/
def subtree (f : Nat → Nat → Nat) (L : List Nat) : Nat → Nat → Nat
  | 0, i => L.getD i 0
  | h + 1, i => f (subtree f L h (2 * i)) (subtree f L h (2 * i + 1))

/-- Decision bit of one proof step: `1` when the sibling went on the left
(odd position), `0` when it went on the right. -/
def stepBit (s : Bool × Nat) : Nat := if s.1 then 1 else 0

/-! ## General helper lemmas -/

theorem foldl_consIf {β : Type} (p : Nat → Prop) [DecidablePred p] (g : Nat → β) :
    ∀ (l : List Nat) (acc : List β),
      l.foldl (fun a x => if p x then g x :: a else a) acc
        = ((l.filter (fun x => decide (p x))).reverse.map g) ++ acc := by
  intro l
  induction l with
  | nil => intro acc; simp
  | cons x rest ih =>
    intro acc
    by_cases hx : p x <;> simp [List.filter_cons, hx, ih, List.append_assoc]

theorem readProofLoop_error (rb : σ → Option (Nat × σ)) (rbr : Nat → σ → Option (α × σ)) :
    ∀ (n : Nat) (s : σ) (acc : List α), readProofLoop rb rbr n s acc true = (acc, true)
  | 0, _, _ => rfl
  | _ + 1, _, _ => by simp [readProofLoop]

theorem readProofLoop_parse (rb : σ → Option (Nat × σ)) (rbr : Nat → σ → Option (α × σ)) :
    ∀ (n : Nat) (s : σ) (acc : List α),
      (∀ l, specParse rb rbr n s = some l →
        readProofLoop rb rbr n s acc false = (acc ++ l, false)) ∧
      (specParse rb rbr n s = none → (readProofLoop rb rbr n s acc false).2 = true) := by
  intro n
  induction n with
  | zero =>
    intro s acc
    constructor
    · intro l hl
      simp only [specParse, Option.some.injEq] at hl
      subst hl
      simp [readProofLoop]
    · intro h
      simp [specParse] at h
  | succ i ih =>
    intro s acc
    constructor
    · intro l hl
      match hrb : rb s with
      | none => simp only [specParse, hrb] at hl; simp at hl
      | some (tag, s1) =>
        simp only [specParse, hrb] at hl
        by_cases htag : 1 ≤ tag ∧ tag ≤ 5
        · rw [if_pos htag] at hl
          match hbr : rbr tag s1 with
          | none => simp only [hbr] at hl; simp at hl
          | some (b, s2) =>
            simp only [hbr] at hl
            match hsp : specParse rb rbr i s2 with
            | none => rw [hsp] at hl; simp at hl
            | some l2 =>
              rw [hsp] at hl
              simp at hl
              subst hl
              simp only [readProofLoop, Bool.false_eq_true, if_false, hrb,
                if_pos htag, hbr]
              rw [(ih s2 (acc ++ [b])).1 l2 hsp]
              simp
        · rw [if_neg htag] at hl
          exact absurd hl (by simp)
    · intro hn
      match hrb : rb s with
      | none => simp [readProofLoop, hrb]
      | some (tag, s1) =>
        simp only [specParse, hrb] at hn
        by_cases htag : 1 ≤ tag ∧ tag ≤ 5
        · rw [if_pos htag] at hn
          match hbr : rbr tag s1 with
          | none => simp [readProofLoop, hrb, if_pos htag, hbr]
          | some (b, s2) =>
            simp only [hbr] at hn
            simp only [readProofLoop, Bool.false_eq_true, if_false, hrb,
              if_pos htag, hbr]
            match hsp : specParse rb rbr i s2 with
            | none => exact (ih s2 (acc ++ [b])).2 hsp
            | some l2 => rw [hsp] at hn; exact absurd hn (by simp)
        · simp only [readProofLoop, Bool.false_eq_true, if_false, hrb, if_neg htag]
          rw [readProofLoop_error]

theorem mkView_size (m : MMR) (w : Nat) :
    (mkView m w).size = if m.size < w ∨ w = 0 then m.size else w := by
  simp [mkView, MMView.size, sizesList]

/-! ## Claim theorems (with their helper lemmas) -/

/-- C10: constructing a view with an explicit `viewSize` argument of `0`
yields a view whose `size()` equals the range's current size — `0` is treated
the same as a `viewSize` exceeding the range's size, both defaulting to the
full current size — so this constructor can never produce an empty view over
a non-empty MMR. -/
theorem viewZero_defaults_to_full (m : MMR) :
    (mkView m 0).size = m.size ∧
    (∀ w, m.size < w → (mkView m w).size = m.size) ∧
    (0 < m.size → ∀ w, 0 < (mkView m w).size) := by
  refine ⟨?_, ?_, ?_⟩
  · rw [mkView_size]; simp
  · intro w hw; rw [mkView_size, if_pos (Or.inl hw)]
  · intro hm w; rw [mkView_size]; split <;> omega

theorem viewZero_defaults_to_full_witness :
    (mkView (buildMMR cmb [7, 8, 9]) 0).size = (buildMMR cmb [7, 8, 9]).size ∧
    (mkView (buildMMR cmb [7, 8, 9]) 5).size = (buildMMR cmb [7, 8, 9]).size ∧
    0 < (mkView (buildMMR cmb [7, 8, 9]) 2).size :=
  ⟨(viewZero_defaults_to_full _).1,
   (viewZero_defaults_to_full _).2.1 5 (by decide),
   (viewZero_defaults_to_full _).2.2 (by decide) 2⟩

theorem lsbReplay_shift (f : Nat → Nat → Nat) :
    ∀ (branch : List Nat) (i index hash : Nat),
      lsbReplay f index branch i hash = safeCheckLoop f branch (index >>> i) hash := by
  intro branch
  induction branch with
  | nil => intro i index hash; rfl
  | cons b rest ih =>
    intro i index hash
    have hbit : index.testBit i = decide ((index >>> i) % 2 = 1) := by
      rw [Nat.testBit_to_div_mod, Nat.shiftRight_eq_div_pow]
    have hdiv : (index >>> i) / 2 = index >>> (i + 1) := by
      rw [Nat.shiftRight_succ]
    by_cases hc : (index >>> i) % 2 = 1
    · have hb : index.testBit i = true := by rw [hbit]; simp [hc]
      simp only [lsbReplay, safeCheckLoop, hb, if_true, if_pos hc]
      by_cases hbh : b = hash
      · rw [if_pos hbh, if_pos hbh]
      · rw [if_neg hbh, if_neg hbh, ih, hdiv]
    · have hb : index.testBit i = false := by rw [hbit]; simp [hc]
      simp only [lsbReplay, safeCheckLoop, hb, Bool.false_eq_true, if_false,
        if_neg hc]
      rw [ih, hdiv]

/-- C2: the replay of `SafeCheck` walks the index bits least-significant
first: the `i`-th sibling of the branch is processed against bit `i` of the
index (the running index is shifted right once per sibling); at a set bit, a
sibling equal to the running hash yields the null hash (non-canonical
rejection) and otherwise the pair is combined with the sibling on the left,
at a clear bit the pair is combined with the sibling on the right, and after
the whole sibling list is consumed the final combined hash is returned. -/
theorem safeCheck_walks_bits_lsb_first (f : Nat → Nat → Nat)
    (branch : List Nat) (index hash : Nat) :
    safeCheckLoop f branch index hash = lsbReplay f index branch 0 hash := by
  rw [lsbReplay_shift]
  norm_num

/-- C9: deserializing a proof is fail-closed — the resulting branch sequence
is the fully parsed list when every tag-prefixed branch reads back cleanly,
and is empty whenever the parse fails mid-way on an unknown branch-type tag
or a stream exception, discarding every branch read so far. -/
theorem deserialize_fail_closed (rb : σ → Option (Nat × σ))
    (rbr : Nat → σ → Option (α × σ)) (n : Nat) (s : σ) :
    deserializeProof rb rbr n s =
      match specParse rb rbr n s with
      | none => []
      | some l => l := by
  cases hp : specParse rb rbr n s with
  | none =>
    have h2 := (readProofLoop_parse rb rbr n s []).2 hp
    simp [deserializeProof, h2]
  | some l =>
    have h1 := (readProofLoop_parse rb rbr n s []).1 l hp
    simp [deserializeProof, h1]

theorem calcPeaks_eq (v : MMView) :
    v.calcPeaks =
      (((List.range v.sizes.length).filter
          (fun ht => decide (ht = v.sizes.length - 1 ∨
            v.sizes.getD (ht + 1) 0 < (v.sizes.getD ht 0 + 1) / 2))).reverse).map
        (fun ht => v.mmr.getNode ht (v.sizes.getD ht 0 - 1)) := by
  have h := foldl_consIf
    (fun ht => ht = v.sizes.length - 1 ∨
      v.sizes.getD (ht + 1) 0 < (v.sizes.getD ht 0 + 1) / 2)
    (fun ht => v.mmr.getNode ht (v.sizes.getD ht 0 - 1))
    (List.range v.sizes.length) []
  simpa [MMView.calcPeaks] using h

/-- C3: `CalcPeaks` on a non-empty view marks height `ht` as a peak exactly
when `ht` is the last height of the halving sequence or
`sizes[ht+1] < ceil(sizes[ht]/2)`; each peak node is fetched as
`GetNode(ht, sizes[ht] - 1)` and inserted at the front of the peaks list, so
the resulting list is ordered from highest height to lowest (the reverse of
the ascending discovery order). -/
theorem calcPeaks_filters_and_reverses (v : MMView) (_hv : 0 < v.size) :
    v.calcPeaks =
      (((List.range v.sizes.length).filter
          (fun ht => decide (ht = v.sizes.length - 1 ∨
            v.sizes.getD (ht + 1) 0 < (v.sizes.getD ht 0 + 1) / 2))).reverse).map
        (fun ht => v.mmr.getNode ht (v.sizes.getD ht 0 - 1)) :=
  calcPeaks_eq v

theorem calcPeaks_filters_and_reverses_witness :
    0 < (mkView (buildMMR cmb [1, 2, 3, 4, 5]) 5).size ∧
    (mkView (buildMMR cmb [1, 2, 3, 4, 5]) 5).calcPeaks =
      (((List.range (mkView (buildMMR cmb [1, 2, 3, 4, 5]) 5).sizes.length).filter
          (fun ht => decide (ht = (mkView (buildMMR cmb [1, 2, 3, 4, 5]) 5).sizes.length - 1 ∨
            (mkView (buildMMR cmb [1, 2, 3, 4, 5]) 5).sizes.getD (ht + 1) 0 <
              ((mkView (buildMMR cmb [1, 2, 3, 4, 5]) 5).sizes.getD ht 0 + 1) / 2))).reverse).map
        (fun ht => (mkView (buildMMR cmb [1, 2, 3, 4, 5]) 5).mmr.getNode ht
          ((mkView (buildMMR cmb [1, 2, 3, 4, 5]) 5).sizes.getD ht 0 - 1)) :=
  ⟨by decide, calcPeaks_filters_and_reverses _ (by decide)⟩

theorem buildLayer_eq_pairFold (f : Nat → Nat → Nat) :
    (l : List Nat) → buildLayer f l = pairFold f l
  | [] => by simp [buildLayer, pairFold]
  | [x] => by simp [buildLayer, pairFold]
  | a :: b :: rest => by
    have ih := buildLayer_eq_pairFold f rest
    rw [pairFold, ← ih]
    simp only [buildLayer]
    have hlen : (a :: b :: rest).length = rest.length + 2 := by simp
    have hdiv : (a :: b :: rest).length / 2 = rest.length / 2 + 1 := by
      rw [hlen]; omega
    rw [hdiv, List.range_succ_eq_map, List.map_cons, List.map_map]
    have hhead : f ((a :: b :: rest).getD (2 * 0) 0) ((a :: b :: rest).getD (2 * 0 + 1) 0)
        = f a b := rfl
    have hcomp :
        ((fun i => f ((a :: b :: rest).getD (2 * i) 0) ((a :: b :: rest).getD (2 * i + 1) 0))
            ∘ Nat.succ)
          = (fun i => f (rest.getD (2 * i) 0) (rest.getD (2 * i + 1) 0)) := by
      funext i
      have h1 : 2 * Nat.succ i = 2 * i + 1 + 1 := by omega
      have h2 : 2 * Nat.succ i + 1 = 2 * i + 1 + 1 + 1 := by omega
      simp only [Function.comp_apply, h1, h2, List.getD_cons_succ]
    rw [hhead, hcomp]
    have hmod : (a :: b :: rest).length % 2 = rest.length % 2 := by rw [hlen]; omega
    rw [hmod]
    rcases Nat.mod_two_eq_zero_or_one rest.length with hp | hp
    · rw [if_neg (by omega), if_neg (by omega)]
      simp
    · rw [if_pos hp, if_pos hp]
      have hr1 : 1 ≤ rest.length := by
        rcases Nat.eq_zero_or_pos rest.length with h0 | h0
        · rw [h0] at hp; simp at hp
        · omega
      have hlast : (a :: b :: rest).length - 1 = rest.length - 1 + 1 + 1 := by
        rw [hlen]; omega
      have hlast2 : (a :: b :: rest).getD ((a :: b :: rest).length - 1) 0
          = rest.getD (rest.length - 1) 0 := by
        rw [hlast]
        simp only [List.getD_cons_succ]
      rw [hlast2]
      simp

theorem rootLoop_false_eq (f : Nat → Nat → Nat) :
    ∀ n (l : List Nat), l.length ≤ n → rootLoop f l false = specRoot f l := by
  intro n
  induction n with
  | zero =>
    intro l hl
    have hnil : l = [] := List.eq_nil_of_length_eq_zero (by omega)
    subst hnil
    rw [rootLoop_eq]
    simp [specRoot]
  | succ n ih =>
    intro l hl
    match l with
    | [] => rw [rootLoop_eq]; simp [specRoot]
    | [x] => rw [rootLoop_eq]; simp [specRoot]
    | a :: b :: rest =>
      rw [rootLoop_eq, if_pos (by right; simp only [List.length_cons]; omega)]
      rw [ih (buildLayer f (a :: b :: rest))
        (by rw [buildLayer_length]; simp only [List.length_cons] at hl ⊢; omega)]
      rw [buildLayer_eq_pairFold]
      conv_rhs => rw [specRoot]

theorem rootLoop_true_eq (f : Nat → Nat → Nat) (l : List Nat) :
    rootLoop f l true = specRoot f l := by
  rw [rootLoop_eq, if_pos (Or.inl rfl),
    rootLoop_false_eq f (buildLayer f l).length _ le_rfl, buildLayer_eq_pairFold]
  match l with
  | [] => rfl
  | [x] => rfl
  | a :: b :: rest => conv_rhs => rw [specRoot]

/-- C5: `GetRoot` reduces the peak list pairwise layer by layer — combining
`peaks[2i]` with `peaks[2i+1]`, with the unpaired last element of every
odd-length layer carried to the next layer unchanged (neither re-hashed nor
duplicated) — until one node remains, whose hash is the root; the root of an
empty view is the null hash. -/
theorem getRoot_is_pairwise_reduction (f : Nat → Nat → Nat) (v : MMView) :
    v.getRoot f = if v.size = 0 then 0 else specRoot f v.calcPeaks := by
  unfold MMView.getRoot
  by_cases h : 0 < v.size
  · rw [if_pos h, if_neg (by omega), rootLoop_true_eq]
  · rw [if_neg h, if_pos (by omega)]

theorem sizesList_one : sizesList 1 = [1] := rfl

theorem sizesList_ge_two {n : Nat} (h : 2 ≤ n) :
    sizesList n = n :: sizesList (n / 2) := by
  obtain ⟨k, hk⟩ : ∃ k, n / 2 = k + 1 := ⟨n / 2 - 1, by omega⟩
  show n :: halving (n / 2) = n :: n / 2 :: halving (n / 2 / 2)
  rw [hk, halving_succ]

theorem sizesList_length_pos (n : Nat) : 0 < (sizesList n).length := by
  simp [sizesList]

theorem peaks_filter_count :
    ∀ n, 0 < n →
      ((List.range (sizesList n).length).filter
        (fun ht => decide (ht = (sizesList n).length - 1 ∨
          (sizesList n).getD (ht + 1) 0 < ((sizesList n).getD ht 0 + 1) / 2))).length
        = popcount n := by
  intro n
  induction n using Nat.strong_induction_on with
  | _ n ih =>
    intro hn
    match n, hn with
    | 1, _ => decide
    | m + 2, _ =>
      have h2 : 2 ≤ m + 2 := by omega
      have hs : sizesList (m + 2) = (m + 2) :: sizesList ((m + 2) / 2) :=
        sizesList_ge_two h2
      have hLpos : 0 < (sizesList ((m + 2) / 2)).length := sizesList_length_pos _
      rw [hs, List.length_cons, List.range_succ_eq_map, List.filter_cons]
      have hc0 :
          decide (0 = (sizesList ((m + 2) / 2)).length + 1 - 1 ∨
            ((m + 2) :: sizesList ((m + 2) / 2)).getD (0 + 1) 0 <
              (((m + 2) :: sizesList ((m + 2) / 2)).getD 0 0 + 1) / 2)
            = decide ((m + 2) % 2 = 1) := by
        rw [decide_eq_decide]
        have hgd : (sizesList ((m + 2) / 2)).getD 0 0 = (m + 2) / 2 := by
          rcases Nat.lt_or_ge ((m + 2) / 2) 2 with hlt | hge
          · interval_cases h : (m + 2) / 2 <;> simp [sizesList, halving, halvingAux]
          · rw [sizesList_ge_two hge]; rfl
        simp only [List.getD_cons_succ, List.getD_cons_zero, hgd]
        omega
      rw [hc0]
      have hfm := List.filter_map (p := fun ht =>
          decide (ht = (sizesList ((m + 2) / 2)).length + 1 - 1 ∨
            ((m + 2) :: sizesList ((m + 2) / 2)).getD (ht + 1) 0 <
              (((m + 2) :: sizesList ((m + 2) / 2)).getD ht 0 + 1) / 2))
        Nat.succ (List.range (sizesList ((m + 2) / 2)).length)
      rw [hfm]
      have hcong : List.filter
          ((fun ht => decide (ht = (sizesList ((m + 2) / 2)).length + 1 - 1 ∨
            ((m + 2) :: sizesList ((m + 2) / 2)).getD (ht + 1) 0 <
              (((m + 2) :: sizesList ((m + 2) / 2)).getD ht 0 + 1) / 2)) ∘ Nat.succ)
          (List.range (sizesList ((m + 2) / 2)).length)
          = List.filter (fun ht => decide (ht = (sizesList ((m + 2) / 2)).length - 1 ∨
              (sizesList ((m + 2) / 2)).getD (ht + 1) 0 <
                ((sizesList ((m + 2) / 2)).getD ht 0 + 1) / 2))
            (List.range (sizesList ((m + 2) / 2)).length) := by
        apply List.filter_congr
        intro ht _
        simp only [Function.comp_apply]
        rw [decide_eq_decide]
        simp only [List.getD_cons_succ]
        constructor
        · rintro (h | h)
          · left; omega
          · right; exact h
        · rintro (h | h)
          · left; omega
          · right; exact h
      rw [hcong]
      have hhalf := ih ((m + 2) / 2) (by omega) (by omega)
      have hpc : popcount (m + 2) = (m + 2) % 2 + popcount ((m + 2) / 2) :=
        popcount_succ (m + 1)
      rcases Nat.mod_two_eq_zero_or_one (m + 2) with hp | hp
      · rw [hp]
        simp only [decide_eq_true_eq]
        rw [if_neg (by omega)]
        rw [List.length_map, hhalf, hpc, hp]
        omega
      · rw [hp]
        simp only [decide_eq_true_eq]
        rw [if_pos (by trivial)]
        rw [List.length_cons, List.length_map, hhalf, hpc, hp]
        omega

/-- C4: for every view of size `N > 0`, the number of peaks computed by
`CalcPeaks` equals the population count (number of set bits) of `N` in
binary. -/
theorem calcPeaks_count_eq_popcount (m : MMR) (n : Nat)
    (h1 : 0 < n) (h2 : n ≤ m.size) :
    (mkView m n).calcPeaks.length = popcount n := by
  have hsz : (mkView m n).sizes = sizesList n := by
    simp only [mkView]
    rw [if_neg (by omega)]
  rw [calcPeaks_eq, List.length_map, List.length_reverse, hsz]
  exact peaks_filter_count n h1

theorem calcPeaks_count_eq_popcount_witness :
    0 < 7 ∧ 7 ≤ (buildMMR cmb [1, 2, 3, 4, 5, 6, 7]).size ∧
    (mkView (buildMMR cmb [1, 2, 3, 4, 5, 6, 7]) 7).calcPeaks.length = popcount 7 :=
  ⟨by decide, by decide,
   calcPeaks_count_eq_popcount (buildMMR cmb [1, 2, 3, 4, 5, 6, 7]) 7
     (by decide) (by decide)⟩

theorem getD_set_ne {α : Type} (l : List α) (i j : Nat) (a d : α) (h : i ≠ j) :
    (l.set i a).getD j d = l.getD j d := by
  simp [List.getD_eq_getElem?_getD, List.getElem?_set_ne h]

theorem getD_set_self {α : Type} (l : List α) (i : Nat) (a d : α) (h : i < l.length) :
    (l.set i a).getD i d = a := by
  simp [List.getD_eq_getElem?_getD, List.getElem?_set_self, h]

theorem getD_take {α : Type} (l : List α) (k i : Nat) (d : α) (h : i < k) :
    (l.take k).getD i d = l.getD i d := by
  simp [List.getD_eq_getElem?_getD, List.getElem?_take, h]

theorem getD_map_range {α : Type} (g : Nat → α) (n i : Nat) (d : α) (h : i < n) :
    ((List.range n).map g).getD i d = g i := by
  simp [List.getD_eq_getElem?_getD, List.getElem?_map, List.getElem?_range, h]

theorem getD_out_of_range {α : Type} (l : List α) (i : Nat) (d : α) (h : l.length ≤ i) :
    l.getD i d = d := by
  rw [List.getD_eq_getElem?_getD, List.getElem?_eq_none (by omega)]
  rfl

theorem log2_mono {a b : Nat} (h : a ≤ b) : Nat.log2 a ≤ Nat.log2 b := by
  rcases Nat.eq_zero_or_pos a with h0 | h0
  · subst h0
    have h00 : Nat.log2 0 = 0 := by simp [Nat.log2]
    rw [h00]
    exact Nat.zero_le _
  · have hb : b ≠ 0 := by omega
    rw [Nat.le_log2 hb]
    exact le_trans (Nat.log2_self_le (by omega)) h

theorem subtree_congr (f : Nat → Nat → Nat) (L M : List Nat) :
    ∀ (h i K : Nat), 2 ^ h * (i + 1) ≤ K →
      (∀ j, j < K → L.getD j 0 = M.getD j 0) →
      subtree f L h i = subtree f M h i
  | 0, i, K, hK, hag => by
    simp only [subtree]
    exact hag i (by simpa using hK)
  | h + 1, i, K, hK, hag => by
    have hq : 2 ^ (h + 1) = 2 ^ h * 2 := pow_succ 2 h
    simp only [subtree]
    have hstep : 2 ^ h * (2 * i + 1 + 1) ≤ K := by
      calc 2 ^ h * (2 * i + 1 + 1) = 2 ^ (h + 1) * (i + 1) := by rw [hq]; ring
      _ ≤ K := hK
    rw [subtree_congr f L M h (2 * i) K
          (le_trans (Nat.mul_le_mul_left _ (by omega)) hstep) hag,
        subtree_congr f L M h (2 * i + 1) K hstep hag]

theorem subtree_append (f : Nat → Nat → Nat) (L : List Nat) (x : Nat)
    (h i : Nat) (hK : 2 ^ h * (i + 1) ≤ L.length) :
    subtree f L h i = subtree f (L ++ [x]) h i :=
  subtree_congr f L (L ++ [x]) h i L.length hK
    (fun j hj => (List.getD_append L [x] 0 j hj).symm)

theorem subtree_take (f : Nat → Nat → Nat) (L : List Nat) (k : Nat)
    (h i : Nat) (hK : 2 ^ h * (i + 1) ≤ k) :
    subtree f L h i = subtree f (L.take k) h i :=
  subtree_congr f L (L.take k) h i k hK
    (fun j hj => (getD_take L k j 0 hj).symm)

theorem sizesList_getD : ∀ n i, (sizesList n).getD i 0 = n / 2 ^ i := by
  intro n
  induction n using Nat.strong_induction_on with
  | _ n ih =>
    intro i
    match n with
    | 0 =>
      match i with
      | 0 => rfl
      | _ + 1 => simp [sizesList, halving_zero, Nat.zero_div]
    | 1 =>
      match i with
      | 0 => rfl
      | j + 1 =>
        rw [sizesList_one]
        rw [getD_out_of_range _ _ _ (by simp)]
        have hlt : 1 < 2 ^ (j + 1) := by
          calc (1 : Nat) < 2 ^ 1 := by norm_num
          _ ≤ 2 ^ (j + 1) := Nat.pow_le_pow_right (by norm_num) (by omega)
        rw [Nat.div_eq_of_lt hlt]
    | m + 2 =>
      rw [sizesList_ge_two (by omega)]
      match i with
      | 0 => simp
      | j + 1 =>
        rw [List.getD_cons_succ, ih ((m + 2) / 2) (by omega) j,
          Nat.div_div_eq_div_mul]
        rw [pow_succ]
        ring_nf

theorem sizesList_length : ∀ n, (sizesList n).length = if n = 0 then 1 else Nat.log2 n + 1 := by
  intro n
  induction n using Nat.strong_induction_on with
  | _ n ih =>
    match n with
    | 0 => rfl
    | 1 =>
      have h1 : Nat.log2 1 = 0 := by simp [Nat.log2]
      simp [sizesList_one, h1]
    | m + 2 =>
      rw [sizesList_ge_two (by omega), List.length_cons,
        ih ((m + 2) / 2) (by omega)]
      have hlog : Nat.log2 (m + 2) = Nat.log2 ((m + 2) / 2) + 1 := by
        rw [Nat.log2]
        simp only [ge_iff_le, if_pos (by omega : 2 ≤ m + 2)]
      rcases Nat.eq_zero_or_pos ((m + 2) / 2) with h0 | h0
      · omega
      · rw [if_neg (by omega), if_neg (by omega), hlog]


theorem getD_append_tail (upper : List (List Nat)) (g : Nat) (hg : upper.length ≤ g) :
    (upper ++ [[]]).getD g [] = ([] : List Nat) := by
  rcases Nat.lt_or_ge g (upper.length + 1) with hg1 | hg1
  · have hgeq : g = upper.length := by omega
    subst hgeq
    rw [List.getD_eq_getElem?_getD, List.getElem?_append_right (le_refl _)]
    simp
  · rw [getD_out_of_range]
    simp only [List.length_append, List.length_singleton]
    omega

theorem addLoop_inv (f : Nat → Nat → Nat) (Lp : List Nat) (hL : 0 < Lp.length) :
    ∀ (k h : Nat) (upper : List (List Nat)),
      Nat.log2 Lp.length - h = k →
      h ≤ Nat.log2 Lp.length →
      upper.length = max (Nat.log2 (Lp.length - 1)) (min h (Nat.log2 Lp.length)) →
      (∀ g, g < h → upper.getD g [] =
        (List.range (Lp.length / 2 ^ (g + 1))).map (subtree f Lp (g + 1))) →
      (∀ g, h ≤ g → upper.getD g [] =
        (List.range ((Lp.length - 1) / 2 ^ (g + 1))).map (subtree f Lp (g + 1))) →
      (addLoop f Lp h (Lp.length / 2 ^ h) upper).length = Nat.log2 Lp.length ∧
      (∀ g, (addLoop f Lp h (Lp.length / 2 ^ h) upper).getD g [] =
        (List.range (Lp.length / 2 ^ (g + 1))).map (subtree f Lp (g + 1))) := by
  intro k
  induction k with
  | zero =>
    intro h upper hk hh hlen hb hc
    have hEq : h = Nat.log2 Lp.length := by omega
    subst hEq
    have hNne : Lp.length ≠ 0 := by omega
    have hup : 2 ^ Nat.log2 Lp.length ≤ Lp.length := Nat.log2_self_le hNne
    have hlow : Lp.length < 2 ^ (Nat.log2 Lp.length + 1) :=
      (Nat.log2_lt hNne).mp (Nat.lt_succ_self _)
    have hdiv1 : Lp.length / 2 ^ Nat.log2 Lp.length = 1 := by
      apply Nat.div_eq_of_lt_le
      · simpa using hup
      · calc Lp.length < 2 ^ (Nat.log2 Lp.length + 1) := hlow
        _ = 2 * 2 ^ Nat.log2 Lp.length := by rw [pow_succ]; ring
    rw [hdiv1, addLoop_eq, if_neg (by omega)]
    constructor
    · rw [hlen]
      have hmono : Nat.log2 (Lp.length - 1) ≤ Nat.log2 Lp.length :=
        log2_mono (by omega)
      omega
    · intro g
      by_cases hg : g < Nat.log2 Lp.length
      · exact hb g hg
      · rw [hc g (by omega)]
        have hlt2 : Lp.length < 2 ^ (g + 1) :=
          lt_of_lt_of_le hlow (Nat.pow_le_pow_right (by norm_num) (by omega))
        have hz1 : Lp.length / 2 ^ (g + 1) = 0 := Nat.div_eq_of_lt hlt2
        have hz2 : (Lp.length - 1) / 2 ^ (g + 1) = 0 :=
          Nat.div_eq_of_lt (by omega)
        rw [hz1, hz2]
  | succ k ih =>
    intro h upper hk hh hlen hb hc
    have hNne : Lp.length ≠ 0 := by omega
    have hhlt : h < Nat.log2 Lp.length := by omega
    have hpow : 2 ^ (h + 1) ≤ Lp.length := (Nat.le_log2 hNne).mp (by omega)
    have h2h : (0:Nat) < 2 ^ h := pow_pos (by norm_num) h
    have h2h1 : (0:Nat) < 2 ^ (h + 1) := pow_pos (by norm_num) (h + 1)
    have hls2 : 2 ≤ Lp.length / 2 ^ h := by
      rw [Nat.le_div_iff_mul_le h2h]
      calc 2 * 2 ^ h = 2 ^ (h + 1) := by rw [pow_succ]; ring
      _ ≤ Lp.length := hpow
    have hhle : h ≤ upper.length := by
      rw [hlen]
      omega
    have hdd : Lp.length / 2 ^ h / 2 = Lp.length / 2 ^ (h + 1) := by
      rw [Nat.div_div_eq_div_mul, pow_succ]
    have hN1 : Lp.length - 1 + 1 = Lp.length := by omega
    have hsd : Lp.length / 2 ^ (h + 1) =
        (Lp.length - 1) / 2 ^ (h + 1) + if 2 ^ (h + 1) ∣ Lp.length then 1 else 0 := by
      have hx := Nat.succ_div (Lp.length - 1) (2 ^ (h + 1))
      rw [hN1] at hx
      exact hx
    have hstep : addLoop f Lp h (Lp.length / 2 ^ h) upper
        = addLoop f Lp (h + 1) (Lp.length / 2 ^ h / 2)
            (if (Lp.length / 2 ^ h) % 2 = 0 ∧
                ((if h = upper.length then upper ++ [[]] else upper).getD h []).length <
                  Lp.length / 2 ^ h / 2
             then (if h = upper.length then upper ++ [[]] else upper).set h
                (((if h = upper.length then upper ++ [[]] else upper).getD h []) ++
                 [if h = 0 then
                    f (Lp.getD (Lp.length / 2 ^ h - 2) 0)
                      (Lp.getD (Lp.length / 2 ^ h - 2 + 1) 0)
                  else
                    f (((if h = upper.length then upper ++ [[]] else upper).getD (h - 1) []).getD
                        (Lp.length / 2 ^ h - 2) 0)
                      (((if h = upper.length then upper ++ [[]] else upper).getD (h - 1) []).getD
                        (Lp.length / 2 ^ h - 2 + 1) 0)])
             else (if h = upper.length then upper ++ [[]] else upper)) := by
      rw [addLoop_eq, if_pos ⟨hhle, by omega⟩]
    set U1 := if h = upper.length then upper ++ [[]] else upper with hU1def
    have hu1g : ∀ g, U1.getD g [] = upper.getD g [] := by
      intro g
      rw [hU1def]
      by_cases hap : h = upper.length
      · rw [if_pos hap]
        by_cases hg : g < upper.length
        · exact List.getD_append upper [[]] [] g hg
        · rw [getD_append_tail upper g (by omega),
            getD_out_of_range upper g [] (by omega)]
      · rw [if_neg hap]
    have hU1len : U1.length = if h = upper.length then upper.length + 1 else upper.length := by
      rw [hU1def]; split <;> simp
    have hhU1 : h < U1.length := by
      rw [hU1len]
      split <;> omega
    have hcur : (U1.getD h []).length = (Lp.length - 1) / 2 ^ (h + 1) := by
      rw [hu1g h, hc h le_rfl, List.length_map, List.length_range]
    by_cases hdvd : 2 ^ (h + 1) ∣ Lp.length
    · obtain ⟨t, ht⟩ := hdvd
      have ht1 : 1 ≤ t := by
        rcases Nat.eq_zero_or_pos t with h0 | h0
        · rw [h0, Nat.mul_zero] at ht; omega
        · omega
      have hdivh : Lp.length / 2 ^ h = 2 * t := by
        rw [ht, pow_succ, show 2 ^ h * 2 * t = 2 ^ h * (2 * t) by ring]
        exact Nat.mul_div_cancel_left _ h2h
      have hdivh1 : Lp.length / 2 ^ (h + 1) = t := by
        rw [ht]
        exact Nat.mul_div_cancel_left _ h2h1
      have hprev : (Lp.length - 1) / 2 ^ (h + 1) = t - 1 := by
        rw [hdivh1, if_pos ⟨t, ht⟩] at hsd
        omega
      have hpush : (Lp.length / 2 ^ h) % 2 = 0 ∧
          (U1.getD h []).length < Lp.length / 2 ^ h / 2 := by
        constructor
        · rw [hdivh]; omega
        · rw [hcur, hdd, hdivh1, hprev]; omega
      rw [hstep, if_pos hpush]
      have hparent :
          (if h = 0 then
             f (Lp.getD (Lp.length / 2 ^ h - 2) 0) (Lp.getD (Lp.length / 2 ^ h - 2 + 1) 0)
           else
             f ((U1.getD (h - 1) []).getD (Lp.length / 2 ^ h - 2) 0)
               ((U1.getD (h - 1) []).getD (Lp.length / 2 ^ h - 2 + 1) 0))
            = subtree f Lp (h + 1) (t - 1) := by
        have hidx : Lp.length / 2 ^ h - 2 = 2 * (t - 1) := by
          rw [hdivh]; omega
        have hidx1 : Lp.length / 2 ^ h - 2 + 1 = 2 * (t - 1) + 1 := by
          rw [hdivh]; omega
        by_cases h0 : h = 0
        · subst h0
          rw [if_pos rfl, hidx1, hidx]
          rfl
        · rw [if_neg h0]
          have hh1 : h - 1 + 1 = h := by omega
          have hb1 := hb (h - 1) (by omega)
          rw [hh1] at hb1
          rw [hu1g (h - 1), hb1, hidx1, hidx,
            getD_map_range _ _ _ _ (by rw [hdivh]; omega),
            getD_map_range _ _ _ _ (by rw [hdivh]; omega)]
          have hsub : subtree f Lp (h + 1) (t - 1)
              = f (subtree f Lp h (2 * (t - 1))) (subtree f Lp h (2 * (t - 1) + 1)) := rfl
          rw [hsub]
      rw [hparent]
      have hnew : (U1.set h (U1.getD h [] ++ [subtree f Lp (h + 1) (t - 1)])).getD h []
          = (List.range (Lp.length / 2 ^ (h + 1))).map (subtree f Lp (h + 1)) := by
        rw [getD_set_self _ _ _ _ hhU1, hu1g h, hc h le_rfl, hprev, hdivh1]
        rw [show t = (t - 1) + 1 by omega, List.range_succ, List.map_append]
        simp
      have hother : ∀ g, g ≠ h →
          (U1.set h (U1.getD h [] ++ [subtree f Lp (h + 1) (t - 1)])).getD g []
            = upper.getD g [] := by
        intro g hg
        rw [getD_set_ne _ _ _ _ _ (fun hx => hg hx.symm), hu1g g]
      have hlen2 : (U1.set h (U1.getD h [] ++ [subtree f Lp (h + 1) (t - 1)])).length
          = U1.length := by
        exact List.length_set U1 h _
      rw [hdd]
      apply ih (h + 1) _ (by omega) (by omega)
      · rw [hlen2, hU1len]
        rcases Nat.lt_or_ge h upper.length with hcmp | hcmp
        · rw [if_neg (by omega), hlen]
          omega
        · have hap : h = upper.length := by omega
          rw [if_pos hap, hlen]
          rw [hlen] at hap
          omega
      · intro g hg
        rcases Nat.lt_or_ge g h with hgh | hgh
        · rw [hother g (by omega)]
          exact hb g hgh
        · have hgeq : g = h := by omega
          subst hgeq
          exact hnew
      · intro g hg
        rw [hother g (by omega)]
        exact hc g (by omega)
    · have hnopush : ¬ ((Lp.length / 2 ^ h) % 2 = 0 ∧
          (U1.getD h []).length < Lp.length / 2 ^ h / 2) := by
        rw [hcur, hdd]
        rw [if_neg hdvd] at hsd
        omega
      rw [hstep, if_neg hnopush, hdd]
      apply ih (h + 1) _ (by omega) (by omega)
      · rw [hU1len]
        rcases Nat.lt_or_ge h upper.length with hcmp | hcmp
        · rw [if_neg (by omega), hlen]
          omega
        · have hap : h = upper.length := by omega
          rw [if_pos hap, hlen]
          rw [hlen] at hap
          omega
      · intro g hg
        rcases Nat.lt_or_ge g h with hgh | hgh
        · rw [hu1g g]
          exact hb g hgh
        · have hgeq : g = h := by omega
          rw [hgeq, hu1g h, hc h le_rfl]
          rw [if_neg hdvd] at hsd
          rw [hsd]
          simp
      · intro g hg
        rw [hu1g g]
        exact hc g (by omega)

theorem list_ext_getD {α : Type} (l1 l2 : List (List α)) (hlen : l1.length = l2.length)
    (h : ∀ g, l1.getD g [] = l2.getD g []) : l1 = l2 := by
  apply List.ext_getElem hlen
  intro i h1 h2
  have hi := h i
  rw [List.getD_eq_getElem?_getD, List.getD_eq_getElem?_getD,
    List.getElem?_eq_getElem h1, List.getElem?_eq_getElem h2] at hi
  simpa using hi

theorem map_range_subtree_append (f : Nat → Nat → Nat) (L : List Nat) (x : Nat) (g : Nat) :
    (List.range (L.length / 2 ^ (g + 1))).map (subtree f L (g + 1))
      = (List.range (L.length / 2 ^ (g + 1))).map (subtree f (L ++ [x]) (g + 1)) := by
  apply List.map_congr_left
  intro i hi
  rw [List.mem_range] at hi
  apply subtree_append
  calc 2 ^ (g + 1) * (i + 1) ≤ 2 ^ (g + 1) * (L.length / 2 ^ (g + 1)) :=
        Nat.mul_le_mul_left _ (by omega)
  _ ≤ L.length := by
        rw [Nat.mul_comm]
        exact Nat.div_mul_le_self _ _

theorem add_inv (f : Nat → Nat → Nat) (L : List Nat) (x : Nat) (m : MMR)
    (h0 : m.layer0 = L)
    (hlen : m.upperNodes.length = Nat.log2 L.length)
    (hn : ∀ g, m.upperNodes.getD g [] =
      (List.range (L.length / 2 ^ (g + 1))).map (subtree f L (g + 1))) :
    (m.add f x).layer0 = L ++ [x] ∧
    (m.add f x).upperNodes.length = Nat.log2 (L.length + 1) ∧
    (∀ g, (m.add f x).upperNodes.getD g [] =
      (List.range ((L.length + 1) / 2 ^ (g + 1))).map (subtree f (L ++ [x]) (g + 1))) := by
  have hlay : (m.add f x).layer0 = L ++ [x] := by
    rw [MMR.add, h0]
  have hlp : (L ++ [x]).length = L.length + 1 := by simp
  have hdiv0 : (L ++ [x]).length / 2 ^ 0 = (L ++ [x]).length := by simp
  have hinv := addLoop_inv f (L ++ [x]) (by simp) (Nat.log2 (L ++ [x]).length) 0
    m.upperNodes (by omega) (by omega)
    (by
      rw [hlen, hlp]
      simp)
    (by intro g hg; omega)
    (by
      intro g _
      rw [hn g, hlp]
      simp only [Nat.add_sub_cancel]
      exact map_range_subtree_append f L x g)
  have hup : (m.add f x).upperNodes
      = addLoop f (L ++ [x]) 0 ((L ++ [x]).length / 2 ^ 0) m.upperNodes := by
    rw [MMR.add, h0, hdiv0]
  refine ⟨hlay, ?_, ?_⟩
  · rw [hup, hinv.1, hlp]
  · intro g
    rw [hup, hinv.2 g, hlp]

theorem build_inv (f : Nat → Nat → Nat) (L : List Nat) :
    (buildMMR f L).layer0 = L ∧
    (buildMMR f L).upperNodes.length = Nat.log2 L.length ∧
    (∀ g, (buildMMR f L).upperNodes.getD g [] =
      (List.range (L.length / 2 ^ (g + 1))).map (subtree f L (g + 1))) := by
  induction L using List.reverseRecOn with
  | nil =>
    refine ⟨rfl, ?_, ?_⟩
    · show (0 : Nat) = Nat.log2 0
      simp [Nat.log2]
    · intro g
      show ([] : List Nat) = _
      simp
  | append_singleton L x ih =>
    have hfold : buildMMR f (L ++ [x]) = (buildMMR f L).add f x := by
      rw [buildMMR, buildMMR, List.foldl_append]
      rfl
    obtain ⟨h0, hlen, hn⟩ := ih
    have := add_inv f L x (buildMMR f L) h0 hlen hn
    rw [← hfold] at this
    simpa using this

/-- C6 (amended): for every sequence of `N` appends into a fresh MMR,
`size()` returns `N`, and `height()` returns `floor(log2 N) + 1` when
`N > 0` and `0` when `N = 0`.  (The spec's `ceil(log2 N) + 1` is corrected
to a floor: for any `N` that is not a power of two the code's height is
`floor(log2 N) + 1`, one less than the claimed value.) -/
theorem build_size_and_height (f : Nat → Nat → Nat) (L : List Nat) :
    (buildMMR f L).size = L.length ∧
    (buildMMR f L).height = if L.length = 0 then 0 else Nat.log2 L.length + 1 := by
  obtain ⟨h0, hlen, _⟩ := build_inv f L
  constructor
  · rw [MMR.size, h0]
  · rw [MMR.height, h0, hlen]

/-- C6 counterexample: after appending 3 leaves the MMR's height is 2, while
the claimed `ceil(log2 3) + 1` is 3. -/
theorem build_height_ceil_counterexample :
    (buildMMR cmb [1, 2, 3]).size = 3 ∧
    (buildMMR cmb [1, 2, 3]).height = 2 ∧
    Nat.clog 2 3 + 1 = 3 ∧
    (buildMMR cmb [1, 2, 3]).height ≠ Nat.clog 2 3 + 1 := by
  have hclog : Nat.clog 2 3 = 2 := by
    have hle : Nat.clog 2 3 ≤ 2 :=
      (Nat.le_pow_iff_clog_le (b := 2) (x := 3) (y := 2) (by norm_num)).mp (by norm_num)
    have hlt : 1 < Nat.clog 2 3 :=
      (Nat.pow_lt_iff_lt_clog (b := 2) (x := 3) (y := 1) (by norm_num)).mp (by norm_num)
    omega
  refine ⟨by decide, by decide, by omega, ?_⟩
  rw [hclog]
  decide

theorem foldl_set_range' {α : Type} (t : Nat → List α → List α) :
    ∀ (k start : Nat) (u : List (List α)), start + k ≤ u.length →
      (((List.range' start k).foldl (fun u2 i => u2.set i (t i (u2.getD i []))) u).length
          = u.length) ∧
      (∀ g, ((List.range' start k).foldl (fun u2 i => u2.set i (t i (u2.getD i []))) u).getD g []
          = if start ≤ g ∧ g < start + k then t g (u.getD g []) else u.getD g []) := by
  intro k
  induction k with
  | zero =>
    intro start u hku
    refine ⟨rfl, ?_⟩
    intro g
    rw [if_neg (by omega)]
    rfl
  | succ k ih =>
    intro start u hku
    rw [List.range'_succ, List.foldl_cons]
    have hlen2 : (u.set start (t start (u.getD start []))).length = u.length :=
      List.length_set u start _
    obtain ⟨ihlen, ihget⟩ := ih (start + 1) (u.set start (t start (u.getD start [])))
      (by omega)
    constructor
    · rw [ihlen, hlen2]
    · intro g
      rw [ihget g]
      by_cases hg1 : start + 1 ≤ g ∧ g < start + 1 + k
      · rw [if_pos hg1, if_pos (by omega),
          getD_set_ne _ _ _ _ _ (by omega)]
      · rw [if_neg hg1]
        by_cases hg2 : g = start
        · subst hg2
          rw [if_pos (by omega), getD_set_self _ _ _ _ (by omega)]
        · rw [if_neg (by omega), getD_set_ne _ _ _ _ _ (by omega)]

theorem truncate_build (f : Nat → Nat → Nat) (L : List Nat) (kk : Nat)
    (hk : kk ≤ L.length) :
    (buildMMR f L).truncate kk = buildMMR f (L.take kk) := by
  obtain ⟨h0, hlen, hn⟩ := build_inv f L
  obtain ⟨h0t, hlent, hnt⟩ := build_inv f (L.take kk)
  have htklen : (L.take kk).length = kk := by
    rw [List.length_take]
    omega
  rcases Nat.eq_or_lt_of_le hk with heq | hlt
  · rw [MMR.truncate, if_neg (by rw [h0]; omega), heq, List.take_length]
  · rw [MMR.truncate, if_pos (by rw [h0]; omega)]
    rcases Nat.eq_zero_or_pos kk with hkz | hkpos
    · subst hkz
      have hbe : buildMMR f (L.take 0) = ⟨[], []⟩ := rfl
      rw [hbe]
      have hs0 : sizesList 0 = [0] := rfl
      simp [hs0, listResize]
    · have hslen : (sizesList kk).length = Nat.log2 kk + 1 := by
        rw [sizesList_length, if_neg (by omega)]
      have hlogle : Nat.log2 kk ≤ Nat.log2 L.length := log2_mono hk
      have hup1 : listResize (buildMMR f L).upperNodes ((sizesList kk).length - 1) []
          = (buildMMR f L).upperNodes.take (Nat.log2 kk) := by
        rw [hslen, listResize, if_pos (by rw [hlen]; omega)]
        simp
      have hup1len : ((buildMMR f L).upperNodes.take (Nat.log2 kk)).length
          = Nat.log2 kk := by
        rw [List.length_take, hlen]
        omega
      have hup1get : ∀ g, g < Nat.log2 kk →
          ((buildMMR f L).upperNodes.take (Nat.log2 kk)).getD g []
            = (List.range (L.length / 2 ^ (g + 1))).map (subtree f L (g + 1)) := by
        intro g hg
        rw [getD_take _ _ _ _ hg]
        exact hn g
      have hfold := foldl_set_range'
        (fun i l => listResize l ((sizesList kk).getD (i + 1) 0) 0)
        (Nat.log2 kk) 0 ((buildMMR f L).upperNodes.take (Nat.log2 kk))
        (by omega)
      have hAB : MMR.mk (listResize (buildMMR f L).layer0 ((sizesList kk).getD 0 0) 0)
          ((List.range ((listResize (buildMMR f L).upperNodes ((sizesList kk).length - 1)
              []).length)).foldl
            (fun u i => u.set i (listResize (u.getD i []) ((sizesList kk).getD (i + 1) 0) 0))
            (listResize (buildMMR f L).upperNodes ((sizesList kk).length - 1) []))
          = buildMMR f (L.take kk) := by
        have hcomp1 : listResize (buildMMR f L).layer0 ((sizesList kk).getD 0 0) 0
            = L.take kk := by
          have hgd0 : (sizesList kk).getD 0 0 = kk := rfl
          rw [hgd0, h0, listResize, if_pos (by omega)]
        have hrange : (List.range ((listResize (buildMMR f L).upperNodes
            ((sizesList kk).length - 1) []).length))
            = List.range' 0 (Nat.log2 kk) := by
          rw [hup1, hup1len, List.range_eq_range']
        rw [hcomp1, hrange, hup1]
        have hres : buildMMR f (L.take kk) = MMR.mk (buildMMR f (L.take kk)).layer0
            (buildMMR f (L.take kk)).upperNodes := rfl
        rw [hres]
        simp only [MMR.mk.injEq]
        refine ⟨h0t.symm, ?_⟩
        apply list_ext_getD
        · rw [hfold.1, hup1len, hlent, htklen]
        · intro g
          have hfold2 := hfold.2 g
          simp only at hfold2
          rw [hfold2, hnt g, htklen]
          by_cases hg : g < Nat.log2 kk
          · rw [if_pos (by omega), hup1get g hg]
            have hgd : (sizesList kk).getD (g + 1) 0 = kk / 2 ^ (g + 1) :=
              sizesList_getD kk (g + 1)
            have hdle : kk / 2 ^ (g + 1) ≤ L.length / 2 ^ (g + 1) :=
              Nat.div_le_div_right hk
            rw [hgd, listResize, if_pos (by simp only [List.length_map, List.length_range]; omega)]
            rw [← List.map_take, List.take_range, Nat.min_eq_left hdle]
            apply List.map_congr_left
            intro i hi
            rw [List.mem_range] at hi
            apply subtree_take
            calc 2 ^ (g + 1) * (i + 1) ≤ 2 ^ (g + 1) * (kk / 2 ^ (g + 1)) :=
                  Nat.mul_le_mul_left _ (by omega)
            _ ≤ kk := by
                  rw [Nat.mul_comm]
                  exact Nat.div_mul_le_self _ _
          · rw [if_neg (by omega),
              getD_out_of_range _ _ _ (by rw [hup1len]; omega)]
            have hz : kk / 2 ^ (g + 1) = 0 := by
              apply Nat.div_eq_of_lt
              have := (Nat.log2_lt (by omega : kk ≠ 0)).mp
                (by omega : Nat.log2 kk < g + 1)
              exact this
            rw [hz]
            simp
      exact hAB

/-- C7: for an MMR built from a leaf sequence and any `k` not larger than its
size, `Truncate(k)` followed by `Truncate(k)` again leaves the MMR with the
same size and the same node value at every height and index as a fresh MMR
built by appending only the first `k` leaves; and `Truncate(newSize)` with
`newSize` at least the current size changes nothing. -/
theorem truncate_idempotent_eq_rebuild (f : Nat → Nat → Nat) (L : List Nat)
    (kk : Nat) (hk : kk ≤ L.length) :
    (((buildMMR f L).truncate kk).truncate kk = buildMMR f (L.take kk)) ∧
    (∀ (m : MMR) (j : Nat), m.size ≤ j → m.truncate j = m) := by
  have hnoop : ∀ (m : MMR) (j : Nat), m.size ≤ j → m.truncate j = m := by
    intro m j hj
    rw [MMR.truncate, if_neg (by rw [MMR.size] at hj; omega)]
  refine ⟨?_, hnoop⟩
  rw [truncate_build f L kk hk]
  apply hnoop
  rw [MMR.size, (build_inv f (L.take kk)).1, List.length_take]
  omega

theorem truncate_idempotent_eq_rebuild_witness :
    (((buildMMR cmb [1, 2, 3, 4, 5]).truncate 3).truncate 3
        = buildMMR cmb ([1, 2, 3, 4, 5].take 3)) ∧
    (buildMMR cmb [1, 2]).truncate 7 = buildMMR cmb [1, 2] :=
  ⟨(truncate_idempotent_eq_rebuild cmb [1, 2, 3, 4, 5] 3 (by decide)).1,
   (truncate_idempotent_eq_rebuild cmb [1, 2, 3, 4, 5] 3 (by decide)).2
     (buildMMR cmb [1, 2]) 7 (by decide)⟩

theorem getD_map (g : Nat → Nat) (l : List Nat) (j : Nat) (h : j < l.length) :
    (l.map g).getD j 0 = g (l.getD j 0) := by
  simp [List.getD_eq_getElem?_getD, List.getElem?_map, List.getElem?_eq_getElem h]

theorem getD_mem (l : List Nat) (j : Nat) (h : j < l.length) : l.getD j 0 ∈ l := by
  rw [List.getD_eq_getElem?_getD, List.getElem?_eq_getElem h]
  exact List.getElem_mem h

theorem findIdx_getD_nodup :
    ∀ (l : List Nat), l.Pairwise (· ≠ ·) → ∀ j, j < l.length →
      l.findIdx (· = l.getD j 0) = j := by
  intro l
  induction l with
  | nil => intro _ j hj; simp at hj
  | cons a tl ih =>
    intro hpw j hj
    match j with
    | 0 => simp [List.findIdx_cons]
    | j + 1 =>
      have hmem : tl.getD j 0 ∈ tl := getD_mem tl j (by simpa using hj)
      have ha : ¬ (a = tl.getD j 0) := (List.pairwise_cons.mp hpw).1 _ hmem
      rw [List.getD_cons_succ, List.findIdx_cons]
      have hih := ih (List.pairwise_cons.mp hpw).2 j (by simpa using hj)
      have hfa : decide (a = tl.getD j 0) = false := decide_eq_false ha
      simp only [hfa, cond_false, hih]

theorem peakIndexesOf_eq (sizes : List Nat) :
    peakIndexesOf sizes =
      ((List.range sizes.length).filter
        (fun ht => decide (ht = sizes.length - 1 ∨ sizes.getD ht 0 % 2 = 1))).reverse := by
  have h := foldl_consIf
    (fun ht => ht = sizes.length - 1 ∨ sizes.getD ht 0 % 2 = 1)
    (fun ht => ht) (List.range sizes.length) []
  simpa [peakIndexesOf, List.map_id] using h

theorem peak_conds_eq (n ht : Nat) :
    (decide (ht = (sizesList n).length - 1 ∨
        (sizesList n).getD (ht + 1) 0 < ((sizesList n).getD ht 0 + 1) / 2))
      = decide (ht = (sizesList n).length - 1 ∨ (sizesList n).getD ht 0 % 2 = 1) := by
  rw [decide_eq_decide]
  have h1 : (sizesList n).getD (ht + 1) 0 = n / 2 ^ (ht + 1) := sizesList_getD n (ht + 1)
  have h2 : (sizesList n).getD ht 0 = n / 2 ^ ht := sizesList_getD n ht
  have h3 : n / 2 ^ (ht + 1) = n / 2 ^ ht / 2 := by
    rw [Nat.div_div_eq_div_mul, pow_succ]
  rw [h1, h2, h3]
  omega

theorem calcPeaks_eq_map_PI (m : MMR) (n : Nat) (h1 : 0 < n) (h2 : n ≤ m.size) :
    (mkView m n).calcPeaks =
      (peakIndexesOf (sizesList n)).map
        (fun ht => m.getNode ht ((sizesList n).getD ht 0 - 1)) := by
  have hsz : (mkView m n).sizes = sizesList n := by
    simp only [mkView]
    rw [if_neg (by omega)]
  have hmm : (mkView m n).mmr = m := rfl
  rw [calcPeaks_eq, hsz, hmm, peakIndexesOf_eq]
  congr 1
  congr 1
  apply List.filter_congr
  intro ht _
  exact peak_conds_eq n ht

theorem peak_scan_agree (m : MMR) (n : Nat) (h1 : 0 < n) (h2 : n ≤ m.size)
    (hdist : (mkView m n).calcPeaks.Pairwise (· ≠ ·))
    (l : Nat) (hl : l ∈ peakIndexesOf (sizesList n)) :
    (mkView m n).calcPeaks.findIdx
        (· = m.getNode l ((sizesList n).getD l 0 - 1))
      = (peakIndexesOf (sizesList n)).findIdx (· = l) := by
  have hpk := calcPeaks_eq_map_PI m n h1 h2
  have hjlt : (peakIndexesOf (sizesList n)).findIdx (· = l)
      < (peakIndexesOf (sizesList n)).length :=
    List.findIdx_lt_length_of_exists ⟨l, hl, by simp⟩
  have hPIj : (peakIndexesOf (sizesList n)).getD
      ((peakIndexesOf (sizesList n)).findIdx (· = l)) 0 = l := by
    have hget := List.findIdx_getElem (p := fun x => decide (x = l)) (w := hjlt)
    simp only [decide_eq_true_eq] at hget
    rw [List.getD_eq_getElem?_getD, List.getElem?_eq_getElem hjlt]
    simpa using hget
  have hpeakj : (mkView m n).calcPeaks.getD
      ((peakIndexesOf (sizesList n)).findIdx (· = l)) 0
      = m.getNode l ((sizesList n).getD l 0 - 1) := by
    rw [hpk, getD_map _ _ _ hjlt, hPIj]
  have hlenp : (mkView m n).calcPeaks.length = (peakIndexesOf (sizesList n)).length := by
    rw [hpk, List.length_map]
  rw [← hpeakj]
  exact findIdx_getD_nodup _ hdist _ (by omega)

theorem bitsPeakWalk_eq_peakWalk (f : Nat → Nat → Nat) (extra : Nat) :
    ∀ (N : Nat) (cur : List Nat) (j : Nat) (first : Bool),
      cur.length + (if first then 1 else 0) ≤ N →
      bitsPeakWalk extra cur.length j first
        = (peakWalk f cur j first).flatMap (fun s => stepBit s :: List.replicate extra 0) := by
  intro N
  induction N with
  | zero =>
    intro cur j first hN
    have hc : cur.length = 0 := by rcases first with _ | _ <;> simp_all
    have hf : first = false := by rcases first with _ | _ <;> simp_all
    rw [bitsPeakWalk_eq, peakWalk_eq, hc, hf]
    simp
  | succ N ih =>
    intro cur j first hN
    rw [bitsPeakWalk_eq, peakWalk_eq]
    by_cases hcond : first = true ∨ 1 < cur.length
    · rw [if_pos hcond, if_pos hcond]
      have hrec := ih (buildLayer f cur) (j / 2) false
        (by
          rw [buildLayer_length]
          rcases first with _ | _ <;> simp_all <;> omega)
      rw [buildLayer_length] at hrec
      rw [List.flatMap_append, ← hrec]
      by_cases hemit : j + 1 < cur.length ∨ j % 2 = 1
      · rw [if_pos hemit, if_pos hemit]
        by_cases hodd : j % 2 = 1
        · rw [if_pos hodd, if_pos hodd]
          simp [stepBit]
        · rw [if_neg hodd, if_neg hodd]
          simp [stepBit]
      · rw [if_neg hemit, if_neg hemit]
        simp
    · rw [if_neg hcond, if_neg hcond]
      simp

theorem bitsWalk_eq_walkLayers (f : Nat → Nat → Nat) (extra : Nat) (m : MMR) (n : Nat)
    (h1 : 0 < n) (h2 : n ≤ m.size)
    (hdist : (mkView m n).calcPeaks.Pairwise (· ≠ ·)) :
    ∀ (d l p : Nat), (sizesList n).length - l = d → l < (sizesList n).length →
      p < n / 2 ^ l →
      bitsWalk extra (sizesList n) (peakIndexesOf (sizesList n)) l p
        = (walkLayers f m (sizesList n) (mkView m n).calcPeaks l p).flatMap
            (fun s => stepBit s :: List.replicate extra 0) := by
  intro d
  induction d with
  | zero => intro l p hd hl _; omega
  | succ d ih =>
    intro l p hd hl hp
    have hlen : (sizesList n).length = Nat.log2 n + 1 := by
      rw [sizesList_length, if_neg (by omega)]
    have hgl : (sizesList n).getD l 0 = n / 2 ^ l := sizesList_getD n l
    have hdd2 : n / 2 ^ (l + 1) = n / 2 ^ l / 2 := by
      rw [Nat.div_div_eq_div_mul, pow_succ]
    have hnext : 2 ≤ n / 2 ^ l → l + 1 < (sizesList n).length := by
      intro hsl2
      have hpow : 2 ^ (l + 1) ≤ n := by
        have hx := (Nat.le_div_iff_mul_le (pow_pos (by norm_num) l)).mp hsl2
        calc 2 ^ (l + 1) = 2 * 2 ^ l := by rw [pow_succ]; ring
        _ ≤ n := hx
      have hll := (Nat.le_log2 (by omega)).mpr hpow
      omega
    rw [bitsWalk_eq, walkLayers_eq, if_pos hl, if_pos hl]
    by_cases hodd : p % 2 = 1
    · rw [if_pos hodd, if_pos hodd]
      have hl1 : l + 1 < (sizesList n).length := hnext (by omega)
      have hp2 : p / 2 < n / 2 ^ (l + 1) := by rw [hdd2]; omega
      rw [ih (l + 1) (p / 2) (by omega) hl1 hp2, List.flatMap_cons]
      simp [stepBit]
    · rw [if_neg hodd, if_neg hodd, hgl]
      by_cases hsucc : p + 1 < n / 2 ^ l
      · rw [if_pos hsucc, if_pos hsucc]
        have hl1 : l + 1 < (sizesList n).length := hnext (by omega)
        have hp2 : p / 2 < n / 2 ^ (l + 1) := by rw [hdd2]; omega
        rw [ih (l + 1) (p / 2) (by omega) hl1 hp2, List.flatMap_cons]
        simp [stepBit]
      · rw [if_neg hsucc, if_neg hsucc]
        have hpeq : p = n / 2 ^ l - 1 := by omega
        have hsodd : (n / 2 ^ l) % 2 = 1 := by omega
        have hmem : l ∈ peakIndexesOf (sizesList n) := by
          rw [peakIndexesOf_eq, List.mem_reverse, List.mem_filter]
          refine ⟨by rw [List.mem_range]; exact hl, ?_⟩
          simp only [decide_eq_true_eq]
          right
          rw [hgl]
          exact hsodd
        have hparg : m.getNode l p = m.getNode l ((sizesList n).getD l 0 - 1) := by
          rw [hgl, hpeq]
        have hscan := peak_scan_agree m n h1 h2 hdist l hmem
        have hlenp : (mkView m n).calcPeaks.length = (peakIndexesOf (sizesList n)).length := by
          rw [calcPeaks_eq_map_PI m n h1 h2, List.length_map]
        rw [hparg, hscan, ← hlenp]
        exact bitsPeakWalk_eq_peakWalk f extra ((mkView m n).calcPeaks.length + 2)
          (mkView m n).calcPeaks _ true (by simp)

/-- C8 (amended): for every position `pos` with `0 < pos < mmvSize`, every MMR
of size at least `mmvSize`, and a view of size `mmvSize` over it whose peak
hashes are pairwise distinct, `GetProofBits(pos, mmvSize)` produces exactly
one decision bit — `0` for a left child, `1` for a right child, followed by
one placeholder zero bit per `extra_hash_count` slot — for each sibling hash
that `GetProof(pos)` emits, with the same left/right decision at each step,
including during the peak-merkle phase (plus the `extra_hash_count` leading
placeholder bits for the leaf extra hashes).  The claim's range `pos <
mmvSize` is corrected to `0 < pos < mmvSize`: at `pos = 0` `GetProofBits`
returns no bits while `GetProof` emits siblings; and the peak hashes must be
pairwise distinct, since `GetProof` locates the peak by a first-match hash
scan which diverges from `GetProofBits`' structural index when two peaks
collide. -/
theorem getProofBits_matches_getProof_walk (f : Nat → Nat → Nat) (extra : Nat)
    (m : MMR) (n pos : Nat) (h2 : n ≤ m.size) (hpos0 : 0 < pos) (hpos : pos < n)
    (hdist : (mkView m n).calcPeaks.Pairwise (· ≠ ·)) :
    getProofBits extra pos n
      = List.replicate extra 0
        ++ ((mkView m n).getProofSteps f pos).flatMap
            (fun s => stepBit s :: List.replicate extra 0) := by
  have h1 : 0 < n := by omega
  have hsz : (mkView m n).sizes = sizesList n := by
    simp only [mkView]
    rw [if_neg (by omega)]
  have hmm : (mkView m n).mmr = m := rfl
  rw [getProofBits, if_pos ⟨hpos0, hpos⟩]
  rw [MMView.getProofSteps, hsz, hmm]
  congr 1
  have hp0 : pos < n / 2 ^ 0 := by simpa using hpos
  exact bitsWalk_eq_walkLayers f extra m n h1 h2 hdist
    ((sizesList n).length - 0) 0 pos rfl (by simp [sizesList]) hp0

/-- C8 counterexample: as stated over all `pos < mmvSize` the claim fails at
`pos = 0` (no bits are produced although `GetProof` emits a sibling), and for
views with colliding peak hashes the decisions diverge (leaves `[1, 2, 6]`
with `6 = cmb 1 2` make the height-0 peak hash equal the height-1 peak hash;
at `pos = 2` the walk emits a left-combine while `GetProofBits` says right). -/
theorem getProofBits_claim_counterexample :
    (getProofBits 0 0 2
        ≠ List.replicate 0 0
          ++ ((mkView (buildMMR cmb [1, 2]) 2).getProofSteps cmb 0).flatMap
              (fun s => stepBit s :: List.replicate 0 0)) ∧
    (getProofBits 0 2 3
        ≠ List.replicate 0 0
          ++ ((mkView (buildMMR cmb [1, 2, 6]) 3).getProofSteps cmb 2).flatMap
              (fun s => stepBit s :: List.replicate 0 0)) := by
  constructor <;> decide

theorem getProofBits_matches_getProof_walk_witness :
    getProofBits 0 2 5
      = List.replicate 0 0
        ++ ((mkView (buildMMR cmb [1, 2, 3, 4, 5]) 5).getProofSteps cmb 2).flatMap
            (fun s => stepBit s :: List.replicate 0 0) :=
  getProofBits_matches_getProof_walk cmb 0 (buildMMR cmb [1, 2, 3, 4, 5]) 5 2
    (by decide) (by decide) (by decide) (by decide)

theorem buildLayer_getD_pair (f : Nat → Nat → Nat) (l : List Nat) (i : Nat)
    (hi : i < l.length / 2) :
    (buildLayer f l).getD i 0 = f (l.getD (2 * i) 0) (l.getD (2 * i + 1) 0) := by
  rw [buildLayer, List.getD_append _ _ _ _ (by
    simp only [List.length_map, List.length_range]; omega)]
  exact getD_map_range _ _ _ _ hi

theorem buildLayer_getD_carry (f : Nat → Nat → Nat) (l : List Nat)
    (hodd : l.length % 2 = 1) :
    (buildLayer f l).getD (l.length / 2) 0 = l.getD (l.length - 1) 0 := by
  rw [buildLayer, if_pos hodd]
  rw [List.getD_eq_getElem?_getD, List.getElem?_append_right (by
    simp only [List.length_map, List.length_range]; omega)]
  simp

theorem getNode_subtree (f : Nat → Nat → Nat) (L : List Nat) (l i : Nat)
    (hi : i < L.length / 2 ^ l) :
    (buildMMR f L).getNode l i = subtree f L l i := by
  obtain ⟨h0, hlen, hn⟩ := build_inv f L
  have hLpos : 0 < L.length := by
    by_contra hz
    have : L.length = 0 := by omega
    rw [this] at hi
    simp at hi
  have hpowle : 2 ^ l ≤ L.length := by
    by_contra hz
    rw [Nat.div_eq_of_lt (by omega)] at hi
    omega
  have hheight : (buildMMR f L).height = Nat.log2 L.length + 1 := by
    rw [MMR.height, h0, if_neg (by omega), hlen]
  match l with
  | 0 =>
    rw [MMR.getNode, if_pos (by omega), if_neg (by omega), h0,
      if_pos (by simpa using hi)]
    rfl
  | l + 1 =>
    have hllog : l + 1 ≤ Nat.log2 L.length := (Nat.le_log2 (by omega)).mpr hpowle
    rw [MMR.getNode, if_pos (by omega), if_pos (by omega)]
    have hng := hn l
    simp only [Nat.add_sub_cancel]
    rw [hng, List.length_map, List.length_range, if_pos hi]
    exact getD_map_range _ _ _ _ hi

theorem flatMap_stepBit_eq_map (steps : List (Bool × Nat)) :
    steps.flatMap (fun s => stepBit s :: List.replicate 0 0) = steps.map stepBit := by
  induction steps with
  | nil => rfl
  | cons s rest ih => rw [List.flatMap_cons, ih]; rfl

theorem bitsToNat_testBit :
    ∀ (bits : List Nat), (∀ b ∈ bits, b ≤ 1) →
      ∀ j, (bitsToNat bits).testBit j = decide (bits.getD j 0 = 1) := by
  intro bits
  induction bits with
  | nil =>
    intro _ j
    show (0 : Nat).testBit j = _
    rw [Nat.zero_testBit]
    simp
  | cons b rest ih =>
    intro hb j
    have hble : b ≤ 1 := hb b (by simp)
    match j with
    | 0 =>
      show (b + 2 * bitsToNat rest).testBit 0 = decide (b = 1)
      rw [Nat.testBit_zero]
      rcases Nat.le_one_iff_eq_zero_or_eq_one.mp hble with h0 | h1
      · subst h0; simp [Nat.add_mul_mod_self_left]
      · subst h1; simp [Nat.add_mul_mod_self_left]
    | j + 1 =>
      show (b + 2 * bitsToNat rest).testBit (j + 1) = decide (rest.getD j 0 = 1)
      rw [Nat.testBit_succ]
      have hdiv : (b + 2 * bitsToNat rest) / 2 = bitsToNat rest := by omega
      rw [hdiv]
      exact ih (fun x hx => hb x (by simp [hx])) j

theorem safeCheckLoop_fold (f : Nat → Nat → Nat) :
    ∀ (steps : List (Bool × Nat)) (idx hash : Nat),
      (∀ j, j < steps.length → idx.testBit j = (steps.getD j (false, 0)).1) →
      safeCheckNoTrigger f (steps.map Prod.snd) idx hash = true →
      safeCheckLoop f (steps.map Prod.snd) idx hash
        = steps.foldl (fun acc s => if s.1 then f s.2 acc else f acc s.2) hash := by
  intro steps
  induction steps with
  | nil => intro idx hash _ _; rfl
  | cons s rest ih =>
    intro idx hash halign htrig
    have hbit0 : idx.testBit 0 = s.1 := halign 0 (by simp)
    have halign2 : ∀ j, j < rest.length → (idx / 2).testBit j = (rest.getD j (false, 0)).1 := by
      intro j hj
      have := halign (j + 1) (by simp; omega)
      rw [Nat.testBit_succ] at this
      simpa using this
    rw [Nat.testBit_zero] at hbit0
    rcases hs1 : s.1 with _ | _
    · have hmod : ¬ (idx % 2 = 1) := by
        rw [hs1] at hbit0
        simpa using hbit0
      rw [List.map_cons] at htrig ⊢
      rw [safeCheckLoop, if_neg hmod]
      rw [safeCheckNoTrigger, if_neg hmod] at htrig
      rw [List.foldl_cons]
      rw [ih (idx / 2) (f hash s.2) halign2 htrig, hs1]
      simp
    · have hmod : idx % 2 = 1 := by
        rw [hs1] at hbit0
        simpa using hbit0
      rw [List.map_cons] at htrig ⊢
      rw [safeCheckNoTrigger, if_pos hmod, Bool.and_eq_true, decide_eq_true_eq] at htrig
      rw [safeCheckLoop, if_pos hmod, if_neg htrig.1]
      rw [List.foldl_cons]
      rw [ih (idx / 2) (f s.2 hash) halign2 htrig.2, hs1]
      simp

theorem peakWalk_fold (f : Nat → Nat → Nat) :
    ∀ (N : Nat) (cur : List Nat) (j : Nat) (first : Bool),
      cur.length + (if first then 1 else 0) ≤ N → j < cur.length →
      (peakWalk f cur j first).foldl
          (fun acc s => if s.1 then f s.2 acc else f acc s.2) (cur.getD j 0)
        = rootLoop f cur first := by
  intro N
  induction N with
  | zero =>
    intro cur j first hN hj
    rcases first with _ | _ <;> simp_all
  | succ N ih =>
    intro cur j first hN hj
    rw [peakWalk_eq, rootLoop_eq]
    by_cases hc : first = true ∨ 1 < cur.length
    · rw [if_pos hc, if_pos hc]
      have hNb : (buildLayer f cur).length ≤ N := by
        rw [buildLayer_length]
        rcases hc with hfirst | hlen2
        · rw [hfirst] at hN
          simp at hN
          omega
        · have hle : cur.length ≤ N + 1 := by
            rcases first with _ | _ <;> simp at hN <;> omega
          omega
      have hjb : j / 2 < (buildLayer f cur).length := by
        rw [buildLayer_length]; omega
      rw [List.foldl_append]
      by_cases he : j + 1 < cur.length ∨ j % 2 = 1
      · rw [if_pos he]
        by_cases hodd : j % 2 = 1
        · rw [if_pos hodd]
          simp only [List.foldl_cons, List.foldl_nil, if_pos rfl]
          have hlt : j / 2 < cur.length / 2 := by omega
          have hpair := buildLayer_getD_pair f cur (j / 2) hlt
          have h2a : 2 * (j / 2) = j - 1 := by omega
          have h2b : 2 * (j / 2) + 1 = j := by omega
          rw [h2b, h2a] at hpair
          rw [← hpair]
          exact ih (buildLayer f cur) (j / 2) false (by simpa using hNb) hjb
        · rw [if_neg hodd]
          have hc2 : j + 1 < cur.length := by rcases he with he | he; exact he; omega
          simp only [List.foldl_cons, List.foldl_nil, Bool.false_eq_true, if_false]
          have hlt : j / 2 < cur.length / 2 := by omega
          have hpair := buildLayer_getD_pair f cur (j / 2) hlt
          have h2a : 2 * (j / 2) = j := by omega
          have h2b : 2 * (j / 2) + 1 = j + 1 := by omega
          rw [h2b, h2a] at hpair
          rw [← hpair]
          exact ih (buildLayer f cur) (j / 2) false (by simpa using hNb) hjb
      · rw [if_neg he, List.foldl_nil]
        have hjlast : j = cur.length - 1 := by omega
        have hmod : cur.length % 2 = 1 := by omega
        have hcarry := buildLayer_getD_carry f cur hmod
        have hj2 : j / 2 = cur.length / 2 := by omega
        rw [hj2, hjlast, ← hcarry]
        exact ih (buildLayer f cur) (cur.length / 2) false (by simpa using hNb)
          (by rw [buildLayer_length]; omega)
    · rw [if_neg hc, if_neg hc, List.foldl_nil]
      have hlen : cur.length ≤ 1 := by
        rcases Nat.lt_or_ge 1 cur.length with h | h
        · exact absurd (Or.inr h) hc
        · exact h
      have hj0 : j = 0 := by omega
      rw [hj0]

theorem walkLayers_fold (f : Nat → Nat → Nat) (L : List Nat) (n : Nat)
    (h1 : 0 < n) (h2 : n ≤ L.length) :
    ∀ (d l p : Nat), (sizesList n).length - l = d → l < (sizesList n).length →
      p < n / 2 ^ l →
      (walkLayers f (buildMMR f L) (sizesList n)
            (mkView (buildMMR f L) n).calcPeaks l p).foldl
          (fun acc s => if s.1 then f s.2 acc else f acc s.2)
          ((buildMMR f L).getNode l p)
        = rootLoop f (mkView (buildMMR f L) n).calcPeaks true := by
  have hmsize : (buildMMR f L).size = L.length := by
    rw [MMR.size, (build_inv f L).1]
  have hdivle : ∀ l, n / 2 ^ l ≤ L.length / 2 ^ l := by
    intro l; exact Nat.div_le_div_right h2
  intro d
  induction d with
  | zero => intro l p hd hl _; omega
  | succ d ih =>
    intro l p hd hl hp
    have hgl : (sizesList n).getD l 0 = n / 2 ^ l := sizesList_getD n l
    have hdd2 : n / 2 ^ (l + 1) = n / 2 ^ l / 2 := by
      rw [Nat.div_div_eq_div_mul, pow_succ]
    have hnext : 2 ≤ n / 2 ^ l → l + 1 < (sizesList n).length := by
      intro hsl2
      have hpow : 2 ^ (l + 1) ≤ n := by
        have hx := (Nat.le_div_iff_mul_le (pow_pos (by norm_num) l)).mp hsl2
        calc 2 ^ (l + 1) = 2 * 2 ^ l := by rw [pow_succ]; ring
        _ ≤ n := hx
      have hll := (Nat.le_log2 (by omega)).mpr hpow
      have hlen : (sizesList n).length = Nat.log2 n + 1 := by
        rw [sizesList_length, if_neg (by omega)]
      omega
    have hsub := getNode_subtree f L l p (by have := hdivle l; omega)
    rw [walkLayers_eq, if_pos hl]
    by_cases hodd : p % 2 = 1
    · rw [if_pos hodd]
      have hl1 : l + 1 < (sizesList n).length := hnext (by omega)
      have hp2 : p / 2 < n / 2 ^ (l + 1) := by rw [hdd2]; omega
      simp only [List.foldl_cons, if_pos rfl]
      have hsubL := getNode_subtree f L l (p - 1) (by have := hdivle l; omega)
      have hsubU := getNode_subtree f L (l + 1) (p / 2) (by
        have := hdivle (l + 1); omega)
      have hcomb : f ((buildMMR f L).getNode l (p - 1)) ((buildMMR f L).getNode l p)
          = (buildMMR f L).getNode (l + 1) (p / 2) := by
        rw [hsub, hsubL, hsubU]
        show _ = f (subtree f L l (2 * (p / 2))) (subtree f L l (2 * (p / 2) + 1))
        have h2a : 2 * (p / 2) = p - 1 := by omega
        have h2b : 2 * (p / 2) + 1 = p := by omega
        rw [h2b, h2a]
      rw [hcomb]
      exact ih (l + 1) (p / 2) (by omega) hl1 hp2
    · rw [if_neg hodd, hgl]
      by_cases hsucc : p + 1 < n / 2 ^ l
      · rw [if_pos hsucc]
        have hl1 : l + 1 < (sizesList n).length := hnext (by omega)
        have hp2 : p / 2 < n / 2 ^ (l + 1) := by rw [hdd2]; omega
        simp only [List.foldl_cons, Bool.false_eq_true, if_false]
        have hsubR := getNode_subtree f L l (p + 1) (by
          have := hdivle l; omega)
        have hsubU := getNode_subtree f L (l + 1) (p / 2) (by
          have := hdivle (l + 1); omega)
        have hcomb : f ((buildMMR f L).getNode l p) ((buildMMR f L).getNode l (p + 1))
            = (buildMMR f L).getNode (l + 1) (p / 2) := by
          rw [hsub, hsubR, hsubU]
          show _ = f (subtree f L l (2 * (p / 2))) (subtree f L l (2 * (p / 2) + 1))
          have h2a : 2 * (p / 2) = p := by omega
          have h2b : 2 * (p / 2) + 1 = p + 1 := by omega
          rw [h2b, h2a]
        rw [hcomb]
        exact ih (l + 1) (p / 2) (by omega) hl1 hp2
      · rw [if_neg hsucc]
        have hpeq : p = n / 2 ^ l - 1 := by omega
        have hsodd : (n / 2 ^ l) % 2 = 1 := by omega
        have hmem : l ∈ peakIndexesOf (sizesList n) := by
          rw [peakIndexesOf_eq, List.mem_reverse, List.mem_filter]
          refine ⟨by rw [List.mem_range]; exact hl, ?_⟩
          simp only [decide_eq_true_eq]
          right
          rw [hgl]
          exact hsodd
        have hpk := calcPeaks_eq_map_PI (buildMMR f L) n h1 (by omega)
        have hmempk : (buildMMR f L).getNode l p ∈ (mkView (buildMMR f L) n).calcPeaks := by
          rw [hpk, List.mem_map]
          exact ⟨l, hmem, by rw [hgl, hpeq]⟩
        have hjlt : (mkView (buildMMR f L) n).calcPeaks.findIdx
              (· = (buildMMR f L).getNode l p)
            < (mkView (buildMMR f L) n).calcPeaks.length :=
          List.findIdx_lt_length_of_exists ⟨(buildMMR f L).getNode l p, hmempk, by simp⟩
        have hatj : (mkView (buildMMR f L) n).calcPeaks.getD
              ((mkView (buildMMR f L) n).calcPeaks.findIdx
                (· = (buildMMR f L).getNode l p)) 0
            = (buildMMR f L).getNode l p := by
          have hget := List.findIdx_getElem
            (p := fun x => decide (x = (buildMMR f L).getNode l p)) (w := hjlt)
          simp only [decide_eq_true_eq] at hget
          rw [List.getD_eq_getElem?_getD, List.getElem?_eq_getElem hjlt]
          simpa using hget
        have hfold := peakWalk_fold f ((mkView (buildMMR f L) n).calcPeaks.length + 1)
          (mkView (buildMMR f L) n).calcPeaks
          ((mkView (buildMMR f L) n).calcPeaks.findIdx
            (· = (buildMMR f L).getNode l p)) true (by simp) hjlt
        rw [hatj] at hfold
        exact hfold

theorem getD_mem_pair (l : List (Bool × Nat)) (j : Nat) (h : j < l.length) :
    l.getD j (false, 0) ∈ l := by
  rw [List.getD_eq_getElem?_getD, List.getElem?_eq_getElem h]
  exact List.getElem_mem h

theorem getD_map_pair (l : List (Bool × Nat)) (g : Bool × Nat → Nat) (j : Nat)
    (h : j < l.length) :
    (l.map g).getD j 0 = g (l.getD j (false, 0)) := by
  simp [List.getD_eq_getElem?_getD, List.getElem?_map, List.getElem?_eq_getElem h]

theorem peakWalk_zero (f : Nat → Nat → Nat) :
    ∀ (N : Nat) (cur : List Nat) (first : Bool),
      cur.length + (if first then 1 else 0) ≤ N →
      ∀ s ∈ peakWalk f cur 0 first, s.1 = false := by
  intro N
  induction N with
  | zero =>
    intro cur first hN s hs
    have hc : cur.length = 0 := by rcases first with _ | _ <;> simp_all
    have hf : first = false := by rcases first with _ | _ <;> simp_all
    rw [peakWalk_eq, hf, if_neg (by simp [hc])] at hs
    simp at hs
  | succ N ih =>
    intro cur first hN s hs
    rw [peakWalk_eq] at hs
    by_cases hc : first = true ∨ 1 < cur.length
    · rw [if_pos hc] at hs
      have hNb : (buildLayer f cur).length ≤ N := by
        rw [buildLayer_length]
        rcases hc with hfirst | hlen2
        · rw [hfirst] at hN
          simp at hN
          omega
        · have hle : cur.length ≤ N + 1 := by
            rcases first with _ | _ <;> simp at hN <;> omega
          omega
      rw [List.mem_append] at hs
      rcases hs with hs | hs
      · by_cases he : 0 + 1 < cur.length ∨ 0 % 2 = 1
        · rw [if_pos he, if_neg (by omega)] at hs
          simp only [List.mem_singleton] at hs
          rw [hs]
        · rw [if_neg he] at hs
          simp at hs
      · exact ih (buildLayer f cur) false (by simpa using hNb) s (by simpa using hs)
    · rw [if_neg hc] at hs
      simp at hs

theorem peakIndexesOf_head (n : Nat) :
    ∃ rest, peakIndexesOf (sizesList n) = ((sizesList n).length - 1) :: rest := by
  rw [peakIndexesOf_eq]
  have hlp : 0 < (sizesList n).length := sizesList_length_pos n
  obtain ⟨k, hk⟩ : ∃ k, (sizesList n).length = k + 1 := ⟨(sizesList n).length - 1, by omega⟩
  rw [hk, List.range_succ, List.filter_append]
  have hfk : List.filter
      (fun ht => decide (ht = k + 1 - 1 ∨ (sizesList n).getD ht 0 % 2 = 1)) [k] = [k] := by
    simp
  rw [hfk, List.reverse_append]
  refine ⟨(List.filter
    (fun ht => decide (ht = k + 1 - 1 ∨ (sizesList n).getD ht 0 % 2 = 1))
    (List.range k)).reverse, ?_⟩
  simp

theorem walkLayers_zero (f : Nat → Nat → Nat) (L : List Nat) (n : Nat)
    (h1 : 0 < n) (h2 : n ≤ L.length) :
    ∀ (d l : Nat), (sizesList n).length - l = d → l < (sizesList n).length →
      0 < n / 2 ^ l →
      ∀ s ∈ walkLayers f (buildMMR f L) (sizesList n)
          (mkView (buildMMR f L) n).calcPeaks l 0, s.1 = false := by
  have hmsize : (buildMMR f L).size = L.length := by
    rw [MMR.size, (build_inv f L).1]
  intro d
  induction d with
  | zero => intro l hd hl _ s hs; omega
  | succ d ih =>
    intro l hd hl hp s hs
    have hgl : (sizesList n).getD l 0 = n / 2 ^ l := sizesList_getD n l
    have hdd2 : n / 2 ^ (l + 1) = n / 2 ^ l / 2 := by
      rw [Nat.div_div_eq_div_mul, pow_succ]
    have hlen : (sizesList n).length = Nat.log2 n + 1 := by
      rw [sizesList_length, if_neg (by omega)]
    have hnext : 2 ≤ n / 2 ^ l → l + 1 < (sizesList n).length := by
      intro hsl2
      have hpow : 2 ^ (l + 1) ≤ n := by
        have hx := (Nat.le_div_iff_mul_le (pow_pos (by norm_num) l)).mp hsl2
        calc 2 ^ (l + 1) = 2 * 2 ^ l := by rw [pow_succ]; ring
        _ ≤ n := hx
      have hll := (Nat.le_log2 (by omega)).mpr hpow
      omega
    rw [walkLayers_eq, if_pos hl, if_neg (by omega)] at hs
    by_cases hsucc : 0 + 1 < (sizesList n).getD l 0
    · rw [if_pos hsucc] at hs
      rcases List.mem_cons.mp hs with hs | hs
      · rw [hs]
      · have hl1 : l + 1 < (sizesList n).length := by
          refine hnext ?_
          rw [hgl] at hsucc
          omega
        have hp1 : 0 < n / 2 ^ (l + 1) := by
          rw [hdd2]
          rw [hgl] at hsucc
          omega
        exact ih (l + 1) (by omega) hl1 hp1 s (by simpa using hs)
    · rw [if_neg hsucc] at hs
      have hsl1 : n / 2 ^ l = 1 := by
        rw [hgl] at hsucc
        omega
      have h2l : 2 ^ l ≤ n := by
        by_contra hlt
        rw [Nat.div_eq_of_lt (by omega)] at hsl1
        omega
      have hlt2 : n < 2 ^ (l + 1) := by
        by_contra hge
        push_neg at hge
        have h2le : 2 ≤ n / 2 ^ l := by
          have hx := Nat.div_le_div_right (c := 2 ^ l) hge
          rw [pow_succ, Nat.mul_div_cancel_left 2 (pow_pos (by norm_num) l)] at hx
          omega
        omega
      have hlog : l = Nat.log2 n := by
        have hle := (Nat.le_log2 (by omega)).mpr h2l
        have hgt := (Nat.log2_lt (by omega)).mpr hlt2
        omega
      obtain ⟨rest, hPI⟩ := peakIndexesOf_head n
      have hheadPI : peakIndexesOf (sizesList n) = l :: rest := by
        rw [hPI]
        congr 1
        omega
      have hpk := calcPeaks_eq_map_PI (buildMMR f L) n h1 (by omega)
      have hpkhead : (mkView (buildMMR f L) n).calcPeaks
          = (buildMMR f L).getNode l ((sizesList n).getD l 0 - 1)
            :: rest.map (fun ht => (buildMMR f L).getNode ht ((sizesList n).getD ht 0 - 1)) := by
        rw [hpk, hheadPI, List.map_cons]
      have hgd : (sizesList n).getD l 0 - 1 = 0 := by
        rw [hgl, hsl1]
      have hfind : (mkView (buildMMR f L) n).calcPeaks.findIdx
          (· = (buildMMR f L).getNode l 0) = 0 := by
        rw [hpkhead, hgd]
        simp [List.findIdx_cons]
      rw [hfind] at hs
      exact peakWalk_zero f ((mkView (buildMMR f L) n).calcPeaks.length + 2)
        (mkView (buildMMR f L) n).calcPeaks true (by simp) s hs

theorem proofIndex_testBit_align (f : Nat → Nat → Nat) (L : List Nat) (n pos : Nat)
    (h1 : 0 < n) (h2 : n ≤ L.length) (hpos : pos < n)
    (hdist : (mkView (buildMMR f L) n).calcPeaks.Pairwise (· ≠ ·)) :
    ∀ j, j < ((mkView (buildMMR f L) n).getProofSteps f pos).length →
      (getMMRProofIndex pos n 0).testBit j
        = (((mkView (buildMMR f L) n).getProofSteps f pos).getD j (false, 0)).1 := by
  have hmsize : (buildMMR f L).size = L.length := by
    rw [MMR.size, (build_inv f L).1]
  have hsz : (mkView (buildMMR f L) n).sizes = sizesList n := by
    simp only [mkView]
    rw [if_neg (by omega)]
  have hmm : (mkView (buildMMR f L) n).mmr = buildMMR f L := rfl
  intro j hj
  rcases Nat.eq_zero_or_pos pos with hp0 | hppos
  · subst hp0
    have hidx : getMMRProofIndex 0 n 0 = 0 := by
      rw [getMMRProofIndex, getProofBits, if_neg (by omega)]
      rfl
    rw [hidx, Nat.zero_testBit, MMView.getProofSteps, hsz, hmm]
    have hjw : j < (walkLayers f (buildMMR f L) (sizesList n)
        (mkView (buildMMR f L) n).calcPeaks 0 0).length := by
      rw [MMView.getProofSteps, hsz, hmm] at hj
      exact hj
    exact (walkLayers_zero f L n h1 h2 ((sizesList n).length - 0) 0 rfl
      (sizesList_length_pos n) (by simpa using h1) _ (getD_mem_pair _ j hjw)).symm
  · have hbits : getProofBits 0 pos n
        = ((mkView (buildMMR f L) n).getProofSteps f pos).map stepBit := by
      rw [getProofBits, if_pos ⟨hppos, hpos⟩, MMView.getProofSteps, hsz, hmm]
      rw [bitsWalk_eq_walkLayers f 0 (buildMMR f L) n h1 (by omega) hdist
        ((sizesList n).length - 0) 0 pos rfl (sizesList_length_pos n) (by simpa using hpos)]
      rw [flatMap_stepBit_eq_map]
      simp
    have hble : ∀ b ∈ ((mkView (buildMMR f L) n).getProofSteps f pos).map stepBit,
        b ≤ 1 := by
      intro b hb
      rw [List.mem_map] at hb
      obtain ⟨s, _, hsb⟩ := hb
      rw [← hsb, stepBit]
      split <;> omega
    rw [getMMRProofIndex, hbits, bitsToNat_testBit _ hble j,
      getD_map_pair _ stepBit j hj]
    rcases hsb : (((mkView (buildMMR f L) n).getProofSteps f pos).getD j (false, 0)).1
      with _ | _ <;> simp only [stepBit, hsb] <;> simp

/-- C1 (amended): the proof round-trip holds under the side conditions the
code actually needs.  For an MMR built from leaves `L`, a view of size `n ≤
|L|`, and a position `pos < n`, replaying the sibling branch of
`GetProof(pos)` through `CMMRBranch::SafeCheck` from the leaf hash at `pos`
returns exactly `GetRoot()` — provided the view's peak hashes are pairwise
distinct (so `GetProof`'s first-match peak scan finds the structural peak),
the remapped proof index is not the 64-bit sentinel `-1`, and no replay step
with a set index bit meets a sibling equal to the running hash (otherwise
`SafeCheck` deliberately returns the null hash, so the unamended claim fails,
e.g. on duplicate adjacent leaves). -/
theorem proof_roundtrip_safe (f : Nat → Nat → Nat) (L : List Nat) (n pos : Nat)
    (h1 : 0 < n) (h2 : n ≤ L.length) (hpos : pos < n)
    (hdist : (mkView (buildMMR f L) n).calcPeaks.Pairwise (· ≠ ·))
    (hsent : getMMRProofIndex pos n 0 ≠ 18446744073709551615)
    (htrig : safeCheckNoTrigger f ((mkView (buildMMR f L) n).getProofBranch f pos)
        (getMMRProofIndex pos n 0) (L.getD pos 0) = true) :
    branchSafeCheck f 0 pos n ((mkView (buildMMR f L) n).getProofBranch f pos)
        (L.getD pos 0)
      = (mkView (buildMMR f L) n).getRoot f := by
  have hmsize : (buildMMR f L).size = L.length := by
    rw [MMR.size, (build_inv f L).1]
  have hsz : (mkView (buildMMR f L) n).sizes = sizesList n := by
    simp only [mkView]
    rw [if_neg (by omega)]
  have hmm : (mkView (buildMMR f L) n).mmr = buildMMR f L := rfl
  show (if getMMRProofIndex pos n 0 = 18446744073709551615 then 0
    else safeCheckLoop f ((mkView (buildMMR f L) n).getProofBranch f pos)
      (getMMRProofIndex pos n 0) (L.getD pos 0)) = _
  rw [if_neg hsent]
  have hbranch : (mkView (buildMMR f L) n).getProofBranch f pos
      = ((mkView (buildMMR f L) n).getProofSteps f pos).map Prod.snd := rfl
  rw [hbranch] at htrig ⊢
  rw [safeCheckLoop_fold f ((mkView (buildMMR f L) n).getProofSteps f pos)
    (getMMRProofIndex pos n 0) (L.getD pos 0)
    (proofIndex_testBit_align f L n pos h1 h2 hpos hdist) htrig]
  have hleaf : L.getD pos 0 = (buildMMR f L).getNode 0 pos := by
    have hsub := getNode_subtree f L 0 pos (by
      have : n / 2 ^ 0 ≤ L.length / 2 ^ 0 := Nat.div_le_div_right h2
      simp only [pow_zero, Nat.div_one] at this ⊢
      omega)
    rw [hsub]
    rfl
  have hsteps : (mkView (buildMMR f L) n).getProofSteps f pos
      = walkLayers f (buildMMR f L) (sizesList n)
          (mkView (buildMMR f L) n).calcPeaks 0 pos := by
    rw [MMView.getProofSteps, hsz, hmm]
  rw [hleaf, hsteps]
  rw [walkLayers_fold f L n h1 h2 ((sizesList n).length - 0) 0 pos rfl
    (sizesList_length_pos n) (by simpa using hpos)]
  rw [MMView.getRoot, if_pos (by rw [mkView_size, if_neg (by omega)]; omega)]

/-- C1 counterexample to the unamended claim: with two equal leaves `[1, 1]`
the honest proof for position 1 carries sibling hash `1`, equal to the
starting leaf hash at an odd-bit step, so `SafeCheck`'s non-canonical
rejection fires and the replay returns the null hash `0` instead of the
root. -/
theorem proof_roundtrip_counterexample :
    branchSafeCheck cmb 0 1 2 ((mkView (buildMMR cmb [1, 1]) 2).getProofBranch cmb 1)
        ([1, 1].getD 1 0)
      ≠ (mkView (buildMMR cmb [1, 1]) 2).getRoot cmb := by
  decide

theorem proof_roundtrip_safe_witness :
    branchSafeCheck cmb 0 2 5
        ((mkView (buildMMR cmb [1, 2, 3, 4, 5]) 5).getProofBranch cmb 2)
        ([1, 2, 3, 4, 5].getD 2 0)
      = (mkView (buildMMR cmb [1, 2, 3, 4, 5]) 5).getRoot cmb :=
  proof_roundtrip_safe cmb [1, 2, 3, 4, 5] 5 2 (by decide) (by decide) (by decide)
    (by decide) (by decide) (by decide)
